import Mathlib

/-!
Verification of the streaming thought-block filter plugins
(`pipes/remove_thinking.py`, `pipes/hide_thinking.py`) and of the outlet
filters (`filters/hide_thinking.py`, `filters/thinking_filter/thinking_filter.py`,
`filters/hide_thinking_filter.py`).

Modelling conventions:
* Text is a `List α` over a decidable alphabet; the pipes' configurable
  delimiter regexes (`valves.start_thought` / `valves.stop_thought`) are
  modelled as literal token sequences, which is exact for every
  configuration whose valve strings are regex literals.  The Python
  pattern `start + "(.*)?" + stop` (DOTALL) is modelled by its
  leftmost-then-greedy search semantics.
* The filters' hard-coded default patterns (`^``` ?thinking(.*?)``` ` with
  MULTILINE/DOTALL, and the `<details>\s*<summary>...` pattern) are
  modelled concretely over `Char`.
* The `json` library is external: an SSE line is modelled as its decoded
  text together with the outcome of `json.loads` on the payload.
-/

namespace ThoughtStream

variable {α : Type} [DecidableEq α]

/-- Whether the literal token `pat` occurs in `s` starting at index `i`
(model of a regex-literal matching at a position). -/
def matchesAt (pat s : List α) (i : Nat) : Bool :=
  pat.isPrefixOf (s.drop i)

/-- Index of the leftmost occurrence of `pat` in `s`
(model of `re.search` for a literal pattern, e.g. `self.start_thought.search(buffer)`). -/
def firstMatch (pat : List α) : List α → Option Nat
  | [] => if pat.isPrefixOf ([] : List α) then some 0 else none
  | a :: s => if pat.isPrefixOf (a :: s) then some 0 else (firstMatch pat s).map (· + 1)

/-- Index of the rightmost occurrence of `pat` in `s`. -/
def lastMatch (pat : List α) : List α → Option Nat
  | [] => if pat.isPrefixOf ([] : List α) then some 0 else none
  | a :: s =>
    match lastMatch pat s with
    | some i => some (i + 1)
    | none => if pat.isPrefixOf (a :: s) then some 0 else none

/-- A position `i` can begin a full match of the pipes' pattern
`start + "(.*)?" + stop` (DOTALL): the start literal occurs here and some stop
literal occurs at or after the end of the start literal. -/
def viable0 (tokStart tokStop s : List α) : Bool :=
  tokStart.isPrefixOf s && (firstMatch tokStop (s.drop tokStart.length)).isSome

/-- Leftmost position at which the full pattern can match
(Python `re.search` scans candidate start positions left to right). -/
def searchStart (tokStart tokStop : List α) : List α → Option Nat
  | [] => if viable0 tokStart tokStop ([] : List α) then some 0 else none
  | a :: s =>
    if viable0 tokStart tokStop (a :: s) then some 0
    else (searchStart tokStart tokStop s).map (· + 1)

/-- Model of `self.pattern.search(buffer)` in the pipes, where
`self.pattern = re.compile(start_thought + "(.*)?" + stop_thought, DOTALL|MULTILINE)`.
The body group `(.*)?` is greedy, so the match starts at the leftmost viable
position and ends at the end of the rightmost stop-literal occurrence
(which necessarily lies at or after the start literal once a position is viable).
Returns `(match.start(), match.end())`. -/
def searchGreedy (tokStart tokStop s : List α) : Option (Nat × Nat) :=
  match searchStart tokStart tokStop s with
  | none => none
  | some i =>
    match lastMatch tokStop s with
    | none => none
    | some j => some (i, j + tokStop.length)

/-- Fuel-bounded worker for `replaceAll`; the fuel dominates the remaining
length, so it never runs out on the initial call. -/
def replaceAllAux (pat rep : List α) : Nat → List α → List α
  | 0, s => s
  | _ + 1, [] => []
  | fuel + 1, a :: s =>
    if pat.isPrefixOf (a :: s) ∧ pat ≠ [] then
      rep ++ replaceAllAux pat rep fuel ((a :: s).drop pat.length)
    else
      a :: replaceAllAux pat rep fuel s

/-- Model of Python's `str.replace(pat, rep)` / `re.sub(pat, rep, s)` for a
nonempty literal `pat`: replace non-overlapping occurrences left to right. -/
def replaceAll (pat rep : List α) (s : List α) : List α :=
  replaceAllAux pat rep s.length s

/-! ### The streaming pipes (`pipes/remove_thinking.py` v1.1.1 and
`pipes/hide_thinking.py` v1.4.0), content-chunk level.

These functions model the streaming section of `Pipe.pipe` (the
`for line in r.iter_lines()` loop over extracted content deltas, plus the
final buffer flush), with the delimiters as literal token lists. -/

/-- Per-stream configuration: the two delimiter literals and, for the hide
pipe, the replacement tags substituted for them
(`"\n\n<details>\n<summary>Reasonning</summary>\n\n"` and `"\n\n</details>\n"`
in the source; abstracted with the alphabet). -/
structure Config (α : Type) where
  tokStart : List α
  tokStop : List α
  openTag : List α := []
  closeTag : List α := []

/-- Model of `len_start_thought = int(1.5 * len(self.valves.start_thought))`. -/
def lenStartThought (cfg : Config α) : Nat :=
  3 * cfg.tokStart.length / 2

/-- The human-facing notifications sent through the `EventEmitter`. -/
inductive Msg where
  | receivingChunks
  | removedBlock (n : Nat)
  | waitingThought (n : Nat)
  | neverFinished
  | neverFound
  deriving DecidableEq, Repr

/-- Status tag carried by an emitted event (`EventEmitter.emit`):
`prog` sends `in_progress`, `succ` sends `success`, `err` sends `error`. -/
inductive Status where
  | inProgress
  | success
  | error
  deriving DecidableEq, Repr

/-- One payload handed to `__event_emitter__`. -/
structure Event where
  status : Status
  msg : Msg
  deriving DecidableEq, Repr

/-- State of the remove pipe's streaming loop (`pipes/remove_thinking.py`):
`buffer`, `thought_removed`, `discarded`, the fragments yielded so far and
the events emitted so far. -/
structure RemoveState (α : Type) where
  buffer : List α := []
  thought_removed : Nat := 0
  discarded : List α := []
  out : List (List α) := []
  events : List Event := []
  deriving DecidableEq

/-- Initial state at `buffer = ""`, `thought_removed = 0`. -/
def initRemove : RemoveState α := {}

/-- First half of one loop iteration of the remove pipe
(`buffer += content; match = self.pattern.search(buffer); if match: ...`). -/
def matchPhaseRemove (cfg : Config α) (st : RemoveState α) (content : List α) :
    RemoveState α :=
  match searchGreedy cfg.tokStart cfg.tokStop (st.buffer ++ content) with
  | some (i, e) =>
    { st with
      buffer := (st.buffer ++ content).take i ++ (st.buffer ++ content).drop e
      discarded := st.discarded ++
        ((st.buffer ++ content).take i ++ (st.buffer ++ content).drop e)
      thought_removed := st.thought_removed + 1
      events := st.events ++ [⟨Status.success, Msg.removedBlock (st.thought_removed + 1)⟩] }
  | none => { st with buffer := st.buffer ++ content }

/-- Second half of one loop iteration of the remove pipe (`if buffer: ...`):
wait if a start delimiter is pending, otherwise emit all but the last
`len_start_thought` characters. -/
def emitPhaseRemove (cfg : Config α) (st : RemoveState α) : RemoveState α :=
  if st.buffer = [] then st
  else if (firstMatch cfg.tokStart st.buffer).isSome then
    { st with
      events := st.events ++ [⟨Status.inProgress, Msg.waitingThought (st.thought_removed + 1)⟩] }
  else if lenStartThought cfg < st.buffer.length then
    { st with
      out := st.out ++ [st.buffer.take (st.buffer.length - lenStartThought cfg)]
      buffer := st.buffer.drop (st.buffer.length - lenStartThought cfg) }
  else st

/-- One full loop iteration of the remove pipe on one content delta. -/
def stepRemove (cfg : Config α) (st : RemoveState α) (content : List α) :
    RemoveState α :=
  emitPhaseRemove cfg (matchPhaseRemove cfg st content)

/-- The state after consuming all content chunks, before the final flush. -/
def preFlushRemove (cfg : Config α) (chunks : List (List α)) : RemoveState α :=
  chunks.foldl (stepRemove cfg) initRemove

/-- Model of the remove pipe's post-loop flush block
(`if buffer: ...` after the chunk loop). -/
def flushYieldRemove (cfg : Config α) (st : RemoveState α) : RemoveState α :=
  if st.buffer = [] then st
  else
    match searchGreedy cfg.tokStart cfg.tokStop st.buffer with
    | some (i, e) =>
      { st with
        buffer := st.buffer.take i ++ st.buffer.drop e
        thought_removed := st.thought_removed + 1
        out := st.out ++ [st.buffer.take i ++ st.buffer.drop e]
        events := st.events ++ [⟨Status.success, Msg.removedBlock (st.thought_removed + 1)⟩] }
    | none =>
      if (firstMatch cfg.tokStart st.buffer).isSome then
        { st with
          out := st.out ++ [st.buffer]
          events := st.events ++ [⟨Status.error, Msg.neverFinished⟩] }
      else
        { st with out := st.out ++ [st.buffer] }

/-- Model of `if not thought_removed: await err("Thought block never found")`. -/
def neverFoundCheck (st : RemoveState α) : RemoveState α :=
  if st.thought_removed = 0 then
    { st with events := st.events ++ [⟨Status.error, Msg.neverFound⟩] }
  else st

/-- Model of the remove pipe's post-loop flush
(`if buffer: ...` after the chunk loop, then the `if not thought_removed:` check). -/
def flushRemove (cfg : Config α) (st : RemoveState α) : RemoveState α :=
  neverFoundCheck (flushYieldRemove cfg st)

/-- The whole remove-mode streaming transform on a list of content chunks. -/
def runRemove (cfg : Config α) (chunks : List (List α)) : RemoveState α :=
  flushRemove cfg (preFlushRemove cfg chunks)

/-- Concatenation of everything a run emitted. -/
def outFlat (st : RemoveState α) : List α :=
  st.out.flatten

/-- State of the hide pipe's streaming loop (`pipes/hide_thinking.py`):
as for the remove pipe, plus the `yielded` accumulator and the
`latest_message` deduplication slot of its `prog`/`succ`/`err` wrappers. -/
structure HideState (α : Type) where
  buffer : List α := []
  thought_removed : Nat := 0
  yielded : List α := []
  out : List (List α) := []
  events : List Event := []
  latest : Option Msg := none
  deriving DecidableEq

/-- Emit an event unless its message equals `latest_message`
(the hide pipe's `prog`/`succ`/`err` all return early on a repeated message). -/
def emitHide (st : HideState α) (status : Status) (m : Msg) : HideState α :=
  if st.latest = some m then st
  else { st with events := st.events ++ [⟨status, m⟩], latest := some m }

/-- Initial hide-pipe state: `prog("Receiving chunks")` has just run. -/
def initHide : HideState α :=
  { events := [⟨Status.inProgress, Msg.receivingChunks⟩], latest := some Msg.receivingChunks }

/-- First half of one loop iteration of the hide pipe: on a full pattern match,
`section = match.group()`, every occurrence of `section` is deleted from the
buffer (`buffer.replace(section, "")`), the start/stop literals inside
`section` are rewritten to the open/close tags (`start_thought.sub` then
`stop_thought.sub`), and the rewritten section is yielded immediately. -/
def matchPhaseHide (cfg : Config α) (st : HideState α) (content : List α) :
    HideState α :=
  let buffer := st.buffer ++ content
  match searchGreedy cfg.tokStart cfg.tokStop buffer with
  | some (i, e) =>
    let sect := (buffer.drop i).take (e - i)
    let buffer' := replaceAll sect [] buffer
    let sect' := replaceAll cfg.tokStop cfg.closeTag (replaceAll cfg.tokStart cfg.openTag sect)
    let st := { st with
      buffer := buffer'
      yielded := st.yielded ++ sect'
      out := st.out ++ [sect']
      thought_removed := st.thought_removed + 1 }
    emitHide st Status.success (Msg.removedBlock st.thought_removed)
  | none => { st with buffer := buffer }

/-- Second half of one loop iteration of the hide pipe (`if buffer: ...`). -/
def emitPhaseHide (cfg : Config α) (st : HideState α) : HideState α :=
  if st.buffer = [] then st
  else if (firstMatch cfg.tokStart st.buffer).isSome then
    emitHide st Status.inProgress (Msg.waitingThought (st.thought_removed + 1))
  else if lenStartThought cfg < st.buffer.length then
    let y := st.buffer.take (st.buffer.length - lenStartThought cfg)
    { st with
      yielded := st.yielded ++ y
      out := st.out ++ [y]
      buffer := st.buffer.drop (st.buffer.length - lenStartThought cfg) }
  else st

/-- One full loop iteration of the hide pipe on one content delta. -/
def stepHide (cfg : Config α) (st : HideState α) (content : List α) : HideState α :=
  emitPhaseHide cfg (matchPhaseHide cfg st content)

/-- Model of the hide pipe's post-loop flush: on a final full match the
rewritten section is yielded first and the remaining buffer right after it;
otherwise the buffer is yielded verbatim (with a `neverFinished` error if an
unclosed start delimiter is pending), then the `neverFound` check runs. -/
def flushHide (cfg : Config α) (st : HideState α) : HideState α :=
  let st' :=
    if st.buffer = [] then st
    else
      match searchGreedy cfg.tokStart cfg.tokStop st.buffer with
      | some (i, e) =>
        let sect := (st.buffer.drop i).take (e - i)
        let buffer' := replaceAll sect [] st.buffer
        let sect' := replaceAll cfg.tokStop cfg.closeTag (replaceAll cfg.tokStart cfg.openTag sect)
        let st := { st with
          buffer := buffer'
          yielded := st.yielded ++ sect' ++ buffer'
          out := st.out ++ [sect', buffer']
          thought_removed := st.thought_removed + 1 }
        emitHide st Status.success (Msg.removedBlock st.thought_removed)
      | none =>
        if (firstMatch cfg.tokStart st.buffer).isSome then
          let st := emitHide st Status.error Msg.neverFinished
          { st with yielded := st.yielded ++ st.buffer, out := st.out ++ [st.buffer] }
        else
          { st with yielded := st.yielded ++ st.buffer, out := st.out ++ [st.buffer] }
  if st'.thought_removed = 0 then emitHide st' Status.error Msg.neverFound
  else st'

/-- The whole hide-mode streaming transform on a list of content chunks. -/
def runHide (cfg : Config α) (chunks : List (List α)) : HideState α :=
  flushHide cfg (chunks.foldl (stepHide cfg) initHide)

/-! ### The outlet filters, concretely over `Char`.

`filters/hide_thinking.py` (v0.3), `filters/thinking_filter/thinking_filter.py`
(v0.1) and `filters/hide_thinking_filter.py` (v0.5) hard-code the default
pattern `rf"{start}(.*?){stop}"` with `start = "^``` ?thinking"`,
`stop = "```"`, flags `DOTALL | MULTILINE`, and (v0.3/v0.5) the converted
pattern `r"<details>\s*<summary>Reasonning</summary>.*?</details>"`.
These are modelled exactly over `Char`. -/

/-- Python whitespace for `str.strip()` and `\s` (ASCII range). -/
def isPyWs (c : Char) : Bool :=
  c = ' ' || c = '\t' || c = '\n' || c = '\r' || c = '\x0b' || c = '\x0c'

/-- Model of Python `str.strip()`. -/
def pyStrip (s : List Char) : List Char :=
  ((s.dropWhile isPyWs).reverse.dropWhile isPyWs).reverse

/-- MULTILINE `^`: start of string, or right after a newline. -/
def anchorAt (s : List Char) (i : Nat) : Bool :=
  i == 0 || s[i - 1]? == some '\n'

/-- Where a match of the start token `^``` ?thinking` beginning at `i` would
end; the optional space is consumed greedily, and `thinking` must follow. -/
def startTokEnd (s : List Char) (i : Nat) : Option Nat :=
  if anchorAt s i && matchesAt "```".data s i then
    if matchesAt " thinking".data s (i + 3) then some (i + 12)
    else if matchesAt "thinking".data s (i + 3) then some (i + 11)
    else none
  else none

/-- The stop token `` ``` `` occurs at `j`. -/
def stopTokAt (s : List Char) (j : Nat) : Bool :=
  matchesAt "```".data s j

/-- Fuel-bounded scan for the least `i` at or after the cursor with `p i`. -/
def scanFrom (p : Nat → Bool) : Nat → Nat → Option Nat
  | 0, _ => none
  | fuel + 1, i => if p i then some i else scanFrom p fuel (i + 1)

/-- End position of a match of the filters' full pattern
`^``` ?thinking(.*?)``` ` starting at `i`: the non-greedy body stops at the
first subsequent stop token. -/
def patMatchAt (s : List Char) (i : Nat) : Option Nat :=
  match startTokEnd s i with
  | none => none
  | some k => (scanFrom (stopTokAt s) (s.length + 1) k).map (· + 3)

/-- Leftmost match `(start, end)` of a position-indexed matcher
(model of `re.search` for the filters' compiled patterns). -/
def searchBy (m : Nat → Option Nat) (len : Nat) : Option (Nat × Nat) :=
  match scanFrom (fun i => (m i).isSome) (len + 1) 0 with
  | none => none
  | some i =>
    match m i with
    | some e => some (i, e)
    | none => none

/-- All non-overlapping matches, scanning left to right on the original
string (model of how `re.sub` enumerates matches). -/
def matchesFromBy (m : Nat → Option Nat) : Nat → Nat → List (Nat × Nat)
  | 0, _ => []
  | fuel + 1, pos =>
    match scanFrom (fun i => (m i).isSome) (fuel + 1) pos with
    | none => []
    | some i =>
      match m i with
      | some e => (i, e) :: matchesFromBy m fuel (max e (i + 1))
      | none => []

/-- Delete left-to-right disjoint spans (in absolute positions, `off` being
the absolute position of the head of `s`) from a string. -/
def cutSpansFrom (s : List Char) (off : Nat) : List (Nat × Nat) → List Char
  | [] => s
  | (i, e) :: rest => s.take (i - off) ++ cutSpansFrom (s.drop (e - off)) e rest

/-- Delete a list of left-to-right disjoint spans from a string. -/
def cutSpans (s : List Char) (spans : List (Nat × Nat)) : List Char :=
  cutSpansFrom s 0 spans

/-- Model of `re.sub(pattern, "", s)` for a position-indexed matcher. -/
def subBy (s : List Char) (m : Nat → Option Nat) : List Char :=
  cutSpans s (matchesFromBy m (s.length + 1) 0)

/-- `self.pattern.search(text)` in the filters. -/
def patSearch (s : List Char) : Option (Nat × Nat) :=
  searchBy (patMatchAt s) s.length

/-- `self.pattern.sub("", text)` in the filters. -/
def patSub (s : List Char) : List Char :=
  subBy s (patMatchAt s)

/-- End position of a match of the converted pattern
`<details>\s*<summary>Reasonning</summary>.*?</details>` starting at `i`.
The literal after `\s*` begins with `<`, which is not whitespace, so the
greedy whitespace run is forced to its maximal extent. -/
def convMatchAt (s : List Char) (i : Nat) : Option Nat :=
  if matchesAt "<details>".data s i then
    let k := i + 9 + ((s.drop (i + 9)).takeWhile isPyWs).length
    if matchesAt "<summary>Reasonning</summary>".data s k then
      (scanFrom (fun j => matchesAt "</details>".data s j) (s.length + 1) (k + 29)).map (· + 10)
    else none
  else none

/-- `self.converted_pattern.search(text)`. -/
def convSearch (s : List Char) : Option (Nat × Nat) :=
  searchBy (convMatchAt s) s.length

/-- `self.converted_pattern.sub("", text)`. -/
def convSub (s : List Char) : List Char :=
  subBy s (convMatchAt s)

/-- Model of `Filter.remove_thought` in `filters/hide_thinking.py` (v0.3);
its `assert`s are modelled as `Except.error` with the assertion message. -/
def removeThoughtV03 (text : List Char) : Except String (List Char) :=
  if (patSearch text).isNone && (convSearch text).isNone then .ok text
  else if pyStrip text = [] then .error "Received empty text"
  else if pyStrip (patSub text) = [] then
    .error "Empty text after step 1 of thought removal"
  else if pyStrip (convSub text) = [] then
    .error "Empty text after step 2 of thought removal"
  else .ok (pyStrip (convSub text))

/-- Model of `Filter.remove_thought` in `filters/hide_thinking_filter.py`
(v0.5): identical except that `step1`/`step2` are not stripped. -/
def removeThoughtV05 (text : List Char) : Except String (List Char) :=
  if (patSearch text).isNone && (convSearch text).isNone then .ok text
  else if pyStrip text = [] then .error "Received empty text"
  else if patSub text = [] then
    .error "Empty text after step 1 of thought removal"
  else if convSub text = [] then
    .error "Empty text after step 2 of thought removal"
  else .ok (convSub text)

/-- Model of `Filter.remove_thought` in
`filters/thinking_filter/thinking_filter.py` (v0.1): just `pattern.sub("", text)`. -/
def removeThoughtV01 (text : List Char) : List Char :=
  patSub text

/-- `body["messages"][-1]["content"] = x` on the list of message contents. -/
def setLast (msgs : List (List Char)) (x : List Char) : List (List Char) :=
  msgs.dropLast ++ [x]

/-- Model of `Filter.outlet` of `filters/hide_thinking.py` (v0.3), acting on
the list of message content strings; `body["messages"][-1]` on an empty list
and failed asserts surface as `Except.error`. -/
def outletV03 (enable : Bool) (msgs : List (List Char)) :
    Except String (List (List Char)) :=
  if !enable then .ok msgs
  else
    match msgs.getLast? with
    | none => .error "IndexError"
    | some lastMsg =>
      if (patSearch lastMsg).isSome then
        let old := pyStrip lastMsg
        match removeThoughtV03 old with
        | .error e => .error e
        | .ok rt =>
          let nw := pyStrip rt
          let msgs1 := if old ≠ nw then setLast msgs nw else msgs
          if nw = [] ∧ old ≠ [] then .ok (setLast msgs1 old) else .ok msgs1
      else .ok msgs

/-- Model of `Filter.outlet` of `filters/thinking_filter/thinking_filter.py`
(v0.1): same control flow, with the total `remove_thought`. -/
def outletV01 (enable : Bool) (msgs : List (List Char)) :
    Except String (List (List Char)) :=
  if !enable then .ok msgs
  else
    match msgs.getLast? with
    | none => .error "IndexError"
    | some lastMsg =>
      if (patSearch lastMsg).isSome then
        let old := pyStrip lastMsg
        let nw := pyStrip (removeThoughtV01 old)
        let msgs1 := if old ≠ nw then setLast msgs nw else msgs
        if nw = [] ∧ old ≠ [] then .ok (setLast msgs1 old) else .ok msgs1
      else .ok msgs

/-! ### SSE line level.

`json.loads` is an external library; an upstream line is modelled as the
decoded text of the line together with the outcome of stripping the
`"data: "` prefix, the `[DONE]` comparison, and the JSON parse of the
payload.  Python's dynamic subscript/membership semantics on parsed JSON
values are modelled explicitly. -/

/-- A parsed JSON value. -/
inductive J where
  | null
  | b (x : Bool)
  | i (x : Int)
  | s (x : String)
  | arr (xs : List J)
  | obj (kvs : List (String × J))

/-- Python exceptions relevant to the chunk-parsing code paths.  `exc m`
stands for `Exception(m)` (the pipes drive control flow by comparing
`str(e)` with `"DONE"` / `"CONTINUE"`). -/
inductive PyErr where
  | keyError
  | typeError
  | indexError
  | attributeError
  | exc (m : String)
  deriving DecidableEq

instance {ε σ : Type} [DecidableEq ε] [DecidableEq σ] : DecidableEq (Except ε σ) := fun a b =>
  match a, b with
  | .ok x, .ok y =>
    if h : x = y then isTrue (congrArg Except.ok h)
    else isFalse fun hh => h (Except.ok.inj hh)
  | .ok _, .error _ => isFalse fun hh => Except.noConfusion hh
  | .error _, .ok _ => isFalse fun hh => Except.noConfusion hh
  | .error x, .error y =>
    if h : x = y then isTrue (congrArg Except.error h)
    else isFalse fun hh => h (Except.error.inj hh)

/-- Python truthiness of a JSON value. -/
def pyTruthy : J → Bool
  | .null => false
  | .b x => x
  | .i n => n != 0
  | .s str => !str.isEmpty
  | .arr xs => !xs.isEmpty
  | .obj kvs => !kvs.isEmpty

/-- Whether a JSON value is the string `k` (Python `==` between a JSON array
element and a string). -/
def jEqStr : J → String → Bool
  | .s x, k => x == k
  | _, _ => false

/-- One sequence occurs inside another (Python substring test). -/
def containsSeq (pat s : List Char) : Bool :=
  (List.range (s.length + 1)).any fun i => pat.isPrefixOf (s.drop i)

/-- Python `value[k]` for a string key `k`. -/
def pySubscriptKey : J → String → Except PyErr J
  | .obj kvs, k =>
    match kvs.lookup k with
    | some v => .ok v
    | none => .error .keyError
  | _, _ => .error .typeError

/-- Python `value[n]` for an integer index `n`: arrays index, JSON objects
(string-keyed dicts) raise `KeyError`, strings index characters. -/
def pySubscriptIdx : J → Nat → Except PyErr J
  | .arr xs, n =>
    match xs[n]? with
    | some v => .ok v
    | none => .error .indexError
  | .obj _, _ => .error .keyError
  | .s str, n =>
    match str.data[n]? with
    | some c => .ok (.s (String.mk [c]))
    | none => .error .indexError
  | _, _ => .error .typeError

/-- Python `value.get(k, default)`: only dicts have `.get`. -/
def pyGet (j : J) (k : String) (dflt : J) : Except PyErr J :=
  match j with
  | .obj kvs => .ok ((kvs.lookup k).getD dflt)
  | _ => .error .attributeError

/-- Python `k in value` for a string `k`. -/
def pyContains (j : J) (k : String) : Except PyErr Bool :=
  match j with
  | .obj kvs => .ok (kvs.lookup k).isSome
  | .arr xs => .ok (xs.any (jEqStr · k))
  | .s str => .ok (containsSeq k.data str.data)
  | _ => .error .typeError

/-- Model of
`if "error" in parsed_line and "message" in parsed_line["error"] and parsed_line["error"]["message"]:`
with Python's short-circuit evaluation. -/
def upstreamErrCheck (parsed : J) : Except PyErr Bool :=
  match pyContains parsed "error" with
  | .error e => .error e
  | .ok false => .ok false
  | .ok true =>
    match pySubscriptKey parsed "error" with
    | .error e => .error e
    | .ok e1 =>
      match pyContains e1 "message" with
      | .error e => .error e
      | .ok false => .ok false
      | .ok true =>
        match pySubscriptKey parsed "error" with
        | .error e => .error e
        | .ok e2 =>
          match pySubscriptKey e2 "message" with
          | .error e => .error e
          | .ok m => .ok (pyTruthy m)

/-- Model of
`try: content = parsed_line["choices"][0]["delta"].get("content", "")
except KeyError as e: raise Exception(f"KeyError for parsed_line: ...")`:
only `KeyError` is caught and re-raised as a generic `Exception`; other
exceptions (`TypeError`, `IndexError`, `AttributeError`) propagate as they are. -/
def getDeltaContent (parsed : J) : Except PyErr J :=
  match pySubscriptKey parsed "choices" with
  | .error .keyError => .error (.exc "KeyError")
  | .error e => .error e
  | .ok ch =>
    match pySubscriptIdx ch 0 with
    | .error .keyError => .error (.exc "KeyError")
    | .error e => .error e
    | .ok c0 =>
      match pySubscriptKey c0 "delta" with
      | .error .keyError => .error (.exc "KeyError")
      | .error e => .error e
      | .ok d =>
        match pyGet d "content" (.s "") with
        | .error .keyError => .error (.exc "KeyError")
        | .error e => .error e
        | .ok v => .ok v

/-- An upstream SSE line: its decoded text, whether (after removing a
`"data: "` prefix) it strips to the `[DONE]` sentinel, and the result of
`json.loads` on the prefix-stripped payload (`none` = parse failure). -/
structure SSELine where
  raw : String
  isDone : Bool
  payload : Option J

/-- Model of the remove pipe's streaming loop at line level
(`pipes/remove_thinking.py`, the `for line in r.iter_lines():` body when
`remove_thoughts` is enabled): empty lines and JSON parse failures are
skipped, `[DONE]` breaks, an upstream error message raises, a missing
`choices[0].delta` path raises, a falsy content is skipped, and a string
content is fed to the buffering step.  A raised exception aborts the run. -/
def runRemoveLines (cfg : Config Char) (st : RemoveState Char) :
    List SSELine → Except PyErr (RemoveState Char)
  | [] => .ok st
  | l :: ls =>
    if l.raw = "" then runRemoveLines cfg st ls
    else if l.isDone then .ok st
    else
      match l.payload with
      | none => runRemoveLines cfg st ls
      | some parsed =>
        match upstreamErrCheck parsed with
        | .error e => .error e
        | .ok true => .error (.exc "upstream error message")
        | .ok false =>
          match getDeltaContent parsed with
          | .error e => .error e
          | .ok content =>
            if pyTruthy content then
              match content with
              | .s c => runRemoveLines cfg (stepRemove cfg st c.data) ls
              | _ => .error .typeError
            else runRemoveLines cfg st ls

/-- Model of `Pipe.parse_chunk` in `pipes/hide_thinking.py`: `[DONE]` and
skippable lines are signalled by raising `Exception("DONE")` /
`Exception("CONTINUE")`. -/
def parseChunk (l : SSELine) : Except PyErr J :=
  if l.isDone then .error (.exc "DONE")
  else
    match l.payload with
    | none => .error (.exc "CONTINUE")
    | some parsed =>
      match upstreamErrCheck parsed with
      | .error e => .error e
      | .ok true => .error (.exc "upstream error message")
      | .ok false =>
        match getDeltaContent parsed with
        | .error e => .error e
        | .ok content =>
          if pyTruthy content then .ok content
          else .error (.exc "CONTINUE")

/-- Model of the hide pipe's pass-through branch
(`pipes/hide_thinking.py`, `if not __user__["valves"].remove_thoughts:`):
each parsed content delta is yielded unchanged; `DONE` breaks, `CONTINUE`
skips, any other exception is wrapped and re-raised,
and appending a non-string content raises `TypeError`. -/
def runHideDisabled : List SSELine → Except PyErr (List String)
  | [] => .ok []
  | l :: ls =>
    match parseChunk l with
    | .ok (.s c) => (runHideDisabled ls).map (c :: ·)
    | .ok _ => .error .typeError
    | .error (.exc m) =>
      if m = "DONE" then .ok []
      else if m = "CONTINUE" then runHideDisabled ls
      else .error (.exc "Error when parsing chunk: ")
    | .error _ => .error (.exc "Error when parsing chunk: ")

/-- Model of the remove pipe's pass-through branch
(`pipes/remove_thinking.py`, `if not self.valves.remove_thoughts:` —
`for line in r.iter_lines(): yield line`): the raw lines themselves are
yielded, `data:` framing, sentinel and all. -/
def runRemoveDisabled (lines : List SSELine) : List String :=
  lines.map (·.raw)

/-- Modelled from the spec: the upstream content deltas of a line sequence —
for each line before the `[DONE]` sentinel, the string at
`choices[0].delta.content` of its JSON payload, when present and nonempty
("each either `data: <json>` carrying an incremental delta at
`choices[0].delta.content`, or the literal sentinel `data: [DONE]`"). -/
def specContentDeltas : List SSELine → List String
  | [] => []
  | l :: ls =>
    if l.isDone then []
    else
      match l.payload with
      | some (.obj kvs) =>
        (match kvs.lookup "choices" with
          | some (.arr (c0 :: _)) =>
            (match c0 with
              | .obj dkvs =>
                (match dkvs.lookup "delta" with
                  | some (.obj ckvs) =>
                    (match ckvs.lookup "content" with
                      | some (.s c) =>
                        if c.isEmpty then specContentDeltas ls else c :: specContentDeltas ls
                      | _ => specContentDeltas ls)
                  | _ => specContentDeltas ls)
              | _ => specContentDeltas ls)
          | _ => specContentDeltas ls)
      | _ => specContentDeltas ls

/-- A position is viable for the pipes' full pattern: the start literal
occurs there and some stop literal occurrence begins at or after its end. -/
def viableAt (tokStart tokStop s : List α) (i : Nat) : Prop :=
  matchesAt tokStart s i = true ∧
    ∃ j, i + tokStart.length ≤ j ∧ matchesAt tokStop s j = true

/-- Invariant of the remove pipe's loop on a single-thought-block stream:
before the block is closed (consumed prefix `P` shorter than the block end
`e0`), nothing was removed, everything emitted is a prefix of the leading
text `u` and nothing is lost; after the block is closed, exactly one block
was removed and output-plus-buffer is the input with the block cut out. -/
def removeInv (u : List α) (e0 : Nat) (st : RemoveState α) (P : List α) : Prop :=
  (st.thought_removed = 0 ∧ outFlat st <+: u ∧ outFlat st ++ st.buffer = P ∧
    P.length < e0) ∨
  (st.thought_removed = 1 ∧ outFlat st ++ st.buffer = u ++ P.drop e0 ∧
    e0 ≤ P.length)

/-! ## Lemmas about the search primitives -/

theorem isPrefixOf_spec {p s : List α} : p.isPrefixOf s = true ↔ ∃ t, p ++ t = s := by
  rw [ List.isPrefixOf_iff_prefix]
  exact Iff.rfl

theorem matchesAt_cons_succ (pat : List α) (a : α) (s : List α) (i : Nat) :
    matchesAt pat (a :: s) (i + 1) = matchesAt pat s i := rfl

theorem matchesAt_drop (pat s : List α) (k i : Nat) :
    matchesAt pat (s.drop k) i = matchesAt pat s (k + i) := by
  unfold matchesAt
  rw [List.drop_drop]

theorem matchesAt_mono {pat s t : List α} {i : Nat} (hpre : s <+: t)
    (h : matchesAt pat s i = true) : matchesAt pat t i = true := by
  obtain ⟨r, rfl⟩ := hpre
  unfold matchesAt at h ⊢
  rw [isPrefixOf_spec] at h ⊢
  obtain ⟨w, hw⟩ := h
  by_cases hi : i ≤ s.length
  · exact ⟨w ++ r, by rw [List.drop_append_of_le_length hi, ← hw, List.append_assoc]⟩
  · have hnil : s.drop i = [] := List.drop_eq_nil_of_le (le_of_lt (not_le.mp hi))
    rw [hnil] at hw
    have : pat = [] := by
      cases pat with
      | nil => rfl
      | cons x xs => simp at hw
    subst this
    exact ⟨(s ++ r).drop i, by simp⟩

theorem matchesAt_le_length {pat s : List α} {i : Nat} (hpat : pat ≠ [])
    (h : matchesAt pat s i = true) : i + pat.length ≤ s.length := by
  unfold matchesAt at h
  rw [isPrefixOf_spec] at h
  obtain ⟨w, hw⟩ := h
  have hlen : pat.length + w.length = (s.drop i).length := by
    rw [← hw]; simp
  rw [List.length_drop] at hlen
  have hpos : 0 < pat.length := List.length_pos.mpr hpat
  omega

theorem matchesAt_take {pat s : List α} {i n : Nat}
    (h : matchesAt pat s i = true) (hn : i + pat.length ≤ n) :
    matchesAt pat (s.take n) i = true := by
  unfold matchesAt at h ⊢
  rw [isPrefixOf_spec] at h ⊢
  obtain ⟨w, hw⟩ := h
  refine ⟨w.take (n - i - pat.length), ?_⟩
  rw [List.drop_take, ← hw, List.take_append_eq_append_take]
  have h1 : List.take (n - i) pat = pat := List.take_of_length_le (by omega)
  rw [h1]

theorem matchesAt_append_right {pat s : List α} (u : List α) {j : Nat}
    (h : matchesAt pat s j = true) : matchesAt pat (u ++ s) (u.length + j) = true := by
  unfold matchesAt at h ⊢
  have : (u ++ s).drop (u.length + j) = s.drop j := by
    rw [← List.drop_drop, List.drop_left]
  rw [this]
  exact h

theorem firstMatch_nil (pat : List α) :
    firstMatch pat ([] : List α) =
      if pat.isPrefixOf ([] : List α) then some 0 else none := rfl

theorem firstMatch_cons (pat : List α) (a : α) (s : List α) :
    firstMatch pat (a :: s) =
      if pat.isPrefixOf (a :: s) then some 0
      else (firstMatch pat s).map (· + 1) := rfl

theorem matchesAt_zero (pat s : List α) : matchesAt pat s 0 = pat.isPrefixOf s := by
  unfold matchesAt
  rfl

theorem firstMatch_some {pat s : List α} {i : Nat}
    (h : firstMatch pat s = some i) : matchesAt pat s i = true := by
  induction s generalizing i with
  | nil =>
    rw [firstMatch_nil] at h
    cases hp : pat.isPrefixOf ([] : List α) with
    | true =>
      rw [hp, if_pos rfl] at h
      cases h
      rw [matchesAt_zero]
      exact hp
    | false =>
      rw [hp] at h
      simp at h
  | cons a s ih =>
    rw [firstMatch_cons] at h
    cases hp : pat.isPrefixOf (a :: s) with
    | true =>
      rw [hp, if_pos rfl] at h
      cases h
      rw [matchesAt_zero]
      exact hp
    | false =>
      rw [hp] at h
      simp only [Bool.false_eq_true, if_false] at h
      cases hfm : firstMatch pat s with
      | none => rw [hfm] at h; cases h
      | some i0 =>
        rw [hfm] at h
        simp at h
        subst h
        rw [matchesAt_cons_succ]
        exact ih hfm

theorem firstMatch_min {pat s : List α} {i : Nat}
    (h : firstMatch pat s = some i) :
    ∀ j, matchesAt pat s j = true → i ≤ j := by
  induction s generalizing i with
  | nil =>
    intro j _
    rw [firstMatch_nil] at h
    cases hp : pat.isPrefixOf ([] : List α) with
    | true =>
      rw [hp, if_pos rfl] at h
      cases h
      exact Nat.zero_le j
    | false =>
      rw [hp] at h
      simp at h
  | cons a s ih =>
    intro j hj
    rw [firstMatch_cons] at h
    cases hp : pat.isPrefixOf (a :: s) with
    | true =>
      rw [hp, if_pos rfl] at h
      cases h
      exact Nat.zero_le j
    | false =>
      rw [hp] at h
      simp only [Bool.false_eq_true, if_false] at h
      cases hfm : firstMatch pat s with
      | none => rw [hfm] at h; cases h
      | some i0 =>
        rw [hfm] at h
        simp at h
        subst h
        cases j with
        | zero =>
          rw [matchesAt_zero] at hj
          rw [hj] at hp
          cases hp
        | succ j0 =>
          rw [matchesAt_cons_succ] at hj
          exact Nat.succ_le_succ (ih hfm j0 hj)

theorem firstMatch_isSome_of {pat s : List α} {j : Nat}
    (h : matchesAt pat s j = true) : (firstMatch pat s).isSome := by
  induction s generalizing j with
  | nil =>
    rw [firstMatch_nil]
    have hp : pat.isPrefixOf ([] : List α) = true := by
      unfold matchesAt at h
      simpa using h
    rw [hp, if_pos rfl]
    rfl
  | cons a s ih =>
    rw [firstMatch_cons]
    cases hp : pat.isPrefixOf (a :: s) with
    | true => rw [if_pos rfl]; rfl
    | false =>
      simp only [Bool.false_eq_true, if_false]
      cases j with
      | zero =>
        rw [matchesAt_zero, hp] at h
        cases h
      | succ j0 =>
        rw [matchesAt_cons_succ] at h
        have := ih h
        cases hfm : firstMatch pat s with
        | none => rw [hfm] at this; simp at this
        | some i0 => simp

theorem firstMatch_none {pat s : List α}
    (h : firstMatch pat s = none) : ∀ j, matchesAt pat s j = false := by
  intro j
  cases hm : matchesAt pat s j with
  | false => rfl
  | true =>
    have := firstMatch_isSome_of hm
    rw [h] at this
    simp at this

theorem lastMatch_nil (pat : List α) :
    lastMatch pat ([] : List α) =
      if pat.isPrefixOf ([] : List α) then some 0 else none := rfl

theorem lastMatch_cons (pat : List α) (a : α) (s : List α) :
    lastMatch pat (a :: s) =
      match lastMatch pat s with
      | some i => some (i + 1)
      | none => if pat.isPrefixOf (a :: s) then some 0 else none := rfl

theorem lastMatch_some {pat s : List α} {j : Nat}
    (h : lastMatch pat s = some j) : matchesAt pat s j = true := by
  induction s generalizing j with
  | nil =>
    rw [lastMatch_nil] at h
    cases hp : pat.isPrefixOf ([] : List α) with
    | true =>
      rw [hp, if_pos rfl] at h
      cases h
      rw [matchesAt_zero]
      exact hp
    | false =>
      rw [hp] at h
      simp at h
  | cons a s ih =>
    rw [lastMatch_cons] at h
    cases hlm : lastMatch pat s with
    | some j0 =>
      rw [hlm] at h
      cases h
      rw [matchesAt_cons_succ]
      exact ih hlm
    | none =>
      rw [hlm] at h
      cases hp : pat.isPrefixOf (a :: s) with
      | true =>
        rw [hp, if_pos rfl] at h
        cases h
        rw [matchesAt_zero]
        exact hp
      | false =>
        rw [hp] at h
        simp at h

theorem lastMatch_isSome_of {pat s : List α} {j : Nat}
    (h : matchesAt pat s j = true) : (lastMatch pat s).isSome := by
  induction s generalizing j with
  | nil =>
    rw [lastMatch_nil]
    have hp : pat.isPrefixOf ([] : List α) = true := by
      unfold matchesAt at h
      simpa using h
    rw [hp, if_pos rfl]
    rfl
  | cons a s ih =>
    rw [lastMatch_cons]
    cases hlm : lastMatch pat s with
    | some j0 => rfl
    | none =>
      cases j with
      | zero =>
        rw [matchesAt_zero] at h
        rw [h, if_pos rfl]
        rfl
      | succ j0 =>
        rw [matchesAt_cons_succ] at h
        have := ih h
        rw [hlm] at this
        simp at this

theorem lastMatch_max {pat s : List α} (hpat : pat ≠ []) {j : Nat}
    (h : lastMatch pat s = some j) :
    ∀ j', matchesAt pat s j' = true → j' ≤ j := by
  induction s generalizing j with
  | nil =>
    intro j' hj'
    unfold matchesAt at hj'
    rw [isPrefixOf_spec] at hj'
    obtain ⟨w, hw⟩ := hj'
    rw [List.drop_nil] at hw
    exact absurd (List.append_eq_nil.mp hw).1 hpat
  | cons a s ih =>
    intro j' hj'
    rw [lastMatch_cons] at h
    cases hlm : lastMatch pat s with
    | some j0 =>
      rw [hlm] at h
      cases h
      cases j' with
      | zero => exact Nat.zero_le _
      | succ j1 =>
        rw [matchesAt_cons_succ] at hj'
        exact Nat.succ_le_succ (ih hlm j1 hj')
    | none =>
      rw [hlm] at h
      cases hp : pat.isPrefixOf (a :: s) with
      | true =>
        rw [hp, if_pos rfl] at h
        cases h
        cases j' with
        | zero => exact Nat.le_refl 0
        | succ j1 =>
          rw [matchesAt_cons_succ] at hj'
          have hs := lastMatch_isSome_of hj'
          rw [hlm] at hs
          simp at hs
      | false =>
        rw [hp] at h
        simp at h

theorem searchStart_nil (st sp : List α) :
    searchStart st sp ([] : List α) =
      if viable0 st sp ([] : List α) then some 0 else none := rfl

theorem searchStart_cons (st sp : List α) (a : α) (s : List α) :
    searchStart st sp (a :: s) =
      if viable0 st sp (a :: s) then some 0
      else (searchStart st sp s).map (· + 1) := rfl

theorem viable0_iff {st sp s : List α} {i : Nat} :
    viable0 st sp (s.drop i) = true ↔ viableAt st sp s i := by
  unfold viable0 viableAt
  rw [Bool.and_eq_true]
  constructor
  · rintro ⟨h1, h2⟩
    refine ⟨h1, ?_⟩
    rw [Option.isSome_iff_exists] at h2
    obtain ⟨j0, hj0⟩ := h2
    have := firstMatch_some hj0
    rw [List.drop_drop, matchesAt_drop] at this
    exact ⟨i + st.length + j0, by omega, this⟩
  · rintro ⟨h1, j, hj, h2⟩
    refine ⟨h1, ?_⟩
    rw [List.drop_drop]
    have : matchesAt sp (s.drop (i + st.length)) (j - (i + st.length)) = true := by
      rw [matchesAt_drop]
      have : i + st.length + (j - (i + st.length)) = j := by omega
      rw [this]
      exact h2
    have := firstMatch_isSome_of this
    exact this

theorem viableAt_zero_iff {st sp X : List α} :
    viableAt st sp X 0 ↔ viable0 st sp X = true := by
  have := @viable0_iff α _ st sp X 0
  rw [List.drop_zero] at this
  exact this.symm

theorem viableAt_cons_succ {st sp : List α} {a : α} {s : List α} {i : Nat} :
    viableAt st sp (a :: s) (i + 1) ↔ viableAt st sp s i := by
  unfold viableAt
  rw [matchesAt_cons_succ]
  constructor
  · rintro ⟨h1, j, hj, h2⟩
    cases j with
    | zero => omega
    | succ j0 =>
      rw [matchesAt_cons_succ] at h2
      exact ⟨h1, j0, by omega, h2⟩
  · rintro ⟨h1, j, hj, h2⟩
    exact ⟨h1, j + 1, by omega, by rw [matchesAt_cons_succ]; exact h2⟩

theorem searchStart_some {st sp s : List α} {i : Nat}
    (h : searchStart st sp s = some i) : viableAt st sp s i := by
  induction s generalizing i with
  | nil =>
    rw [searchStart_nil] at h
    cases hv : viable0 st sp ([] : List α) with
    | true =>
      rw [hv, if_pos rfl] at h
      cases h
      exact viableAt_zero_iff.mpr hv
    | false =>
      rw [hv] at h
      simp at h
  | cons a s ih =>
    rw [searchStart_cons] at h
    cases hv : viable0 st sp (a :: s) with
    | true =>
      rw [hv, if_pos rfl] at h
      cases h
      exact viableAt_zero_iff.mpr hv
    | false =>
      rw [hv] at h
      simp only [Bool.false_eq_true, if_false] at h
      cases hss : searchStart st sp s with
      | none => rw [hss] at h; cases h
      | some i0 =>
        rw [hss] at h
        simp at h
        subst h
        exact viableAt_cons_succ.mpr (ih hss)

theorem searchStart_min {st sp s : List α} {i : Nat}
    (h : searchStart st sp s = some i) :
    ∀ i', i' < i → ¬ viableAt st sp s i' := by
  induction s generalizing i with
  | nil =>
    intro i' hi'
    rw [searchStart_nil] at h
    cases hv : viable0 st sp ([] : List α) with
    | true =>
      rw [hv, if_pos rfl] at h
      cases h
      omega
    | false =>
      rw [hv] at h
      simp at h
  | cons a s ih =>
    intro i' hi' hvi'
    rw [searchStart_cons] at h
    cases hv : viable0 st sp (a :: s) with
    | true =>
      rw [hv, if_pos rfl] at h
      cases h
      omega
    | false =>
      rw [hv] at h
      simp only [Bool.false_eq_true, if_false] at h
      cases hss : searchStart st sp s with
      | none => rw [hss] at h; cases h
      | some i0 =>
        rw [hss] at h
        simp at h
        subst h
        cases i' with
        | zero =>
          rw [viableAt_zero_iff] at hvi'
          rw [hvi'] at hv
          cases hv
        | succ i1 =>
          exact ih hss i1 (by omega) (viableAt_cons_succ.mp hvi')

theorem searchStart_isSome_of {st sp s : List α} {i : Nat}
    (h : viableAt st sp s i) : (searchStart st sp s).isSome := by
  induction s generalizing i with
  | nil =>
    rw [searchStart_nil]
    have hb : viable0 st sp ([] : List α) = true := by
      obtain ⟨h1, j, hj, h2⟩ := h
      unfold matchesAt at h1 h2
      rw [List.drop_nil] at h1 h2
      exact viableAt_zero_iff.mp ⟨by simpa [matchesAt] using h1, 0 + st.length, by omega,
        by simpa [matchesAt] using h2⟩
    rw [hb, if_pos rfl]
    rfl
  | cons a s ih =>
    rw [searchStart_cons]
    cases hv : viable0 st sp (a :: s) with
    | true => rw [if_pos rfl]; rfl
    | false =>
      simp only [Bool.false_eq_true, if_false]
      cases i with
      | zero =>
        rw [viableAt_zero_iff] at h
        rw [h] at hv
        cases hv
      | succ i0 =>
        have := ih (viableAt_cons_succ.mp h)
        cases hss : searchStart st sp s with
        | none => rw [hss] at this; simp at this
        | some _ => simp

theorem searchStart_none {st sp s : List α}
    (h : searchStart st sp s = none) : ∀ i, ¬ viableAt st sp s i := by
  intro i hv
  have := searchStart_isSome_of hv
  rw [h] at this
  simp at this

theorem searchStart_eq_some_of {st sp s : List α} {i : Nat}
    (hv : viableAt st sp s i) (hmin : ∀ i', i' < i → ¬ viableAt st sp s i') :
    searchStart st sp s = some i := by
  have hs := searchStart_isSome_of hv
  rw [Option.isSome_iff_exists] at hs
  obtain ⟨i0, hi0⟩ := hs
  have h1 := searchStart_some hi0
  have h2 := searchStart_min hi0
  have hle1 : ¬ i0 < i := fun hc => hmin i0 hc h1
  have hle2 : ¬ i < i0 := fun hc => h2 i hc hv
  have : i0 = i := by omega
  rw [← this]
  exact hi0

theorem lastMatch_eq_some_of {pat s : List α} (hpat : pat ≠ []) {j : Nat}
    (hm : matchesAt pat s j = true)
    (hmax : ∀ j', matchesAt pat s j' = true → j' ≤ j) :
    lastMatch pat s = some j := by
  have hs := lastMatch_isSome_of hm
  rw [Option.isSome_iff_exists] at hs
  obtain ⟨j0, hj0⟩ := hs
  have h1 := lastMatch_some hj0
  have h2 := lastMatch_max hpat hj0 j hm
  have h3 := hmax j0 h1
  have : j0 = j := by omega
  rw [← this]
  exact hj0

theorem searchGreedy_some_elim {st sp s : List α} {i e : Nat}
    (h : searchGreedy st sp s = some (i, e)) :
    searchStart st sp s = some i ∧ lastMatch sp s = some (e - sp.length) ∧
      sp.length ≤ e := by
  unfold searchGreedy at h
  cases hss : searchStart st sp s with
  | none => rw [hss] at h; cases h
  | some i0 =>
    rw [hss] at h
    cases hlm : lastMatch sp s with
    | none => rw [hlm] at h; cases h
    | some j0 =>
      rw [hlm] at h
      cases h
      exact ⟨rfl, by rw [Nat.add_sub_cancel], by omega⟩

theorem searchGreedy_none_of_noStart {st sp s : List α}
    (h : ∀ j, matchesAt st s j = false) : searchGreedy st sp s = none := by
  unfold searchGreedy
  cases hss : searchStart st sp s with
  | none => rfl
  | some i =>
    have hv := searchStart_some hss
    have hvi := hv.1
    rw [h i] at hvi
    cases hvi

theorem searchGreedy_eq_of {st sp s : List α} (hsp : sp ≠ []) {i j : Nat}
    (hv : viableAt st sp s i) (hmin : ∀ i', i' < i → ¬ viableAt st sp s i')
    (hm : matchesAt sp s j = true)
    (hmax : ∀ j', matchesAt sp s j' = true → j' ≤ j) :
    searchGreedy st sp s = some (i, j + sp.length) := by
  unfold searchGreedy
  rw [searchStart_eq_some_of hv hmin, lastMatch_eq_some_of hsp hm hmax]

/-! ## Structural lemmas about the remove pipe's step -/

theorem emitPhaseRemove_fifo (cfg : Config α) (st : RemoveState α) :
    ∃ k, k ≤ st.buffer.length ∧
      (emitPhaseRemove cfg st).out =
        st.out ++ (if k = 0 then [] else [st.buffer.take k]) ∧
      (emitPhaseRemove cfg st).buffer = st.buffer.drop k ∧
      (emitPhaseRemove cfg st).thought_removed = st.thought_removed := by
  unfold emitPhaseRemove
  by_cases h0 : st.buffer = []
  · exact ⟨0, by simp [h0]⟩
  · rw [if_neg h0]
    by_cases h1 : (firstMatch cfg.tokStart st.buffer).isSome
    · rw [if_pos h1]
      exact ⟨0, by simp⟩
    · rw [if_neg h1]
      by_cases h2 : lenStartThought cfg < st.buffer.length
      · rw [if_pos h2]
        refine ⟨st.buffer.length - lenStartThought cfg, by omega, ?_, by simp, rfl⟩
        have hk : st.buffer.length - lenStartThought cfg ≠ 0 := by omega
        simp [hk]
      · rw [if_neg h2]
        exact ⟨0, by simp⟩

theorem emitPhaseRemove_conserve (cfg : Config α) (st : RemoveState α) :
    outFlat (emitPhaseRemove cfg st) ++ (emitPhaseRemove cfg st).buffer =
      outFlat st ++ st.buffer := by
  obtain ⟨k, _, hout, hbuf, _⟩ := emitPhaseRemove_fifo cfg st
  unfold outFlat
  rw [hout, hbuf]
  by_cases hk : k = 0
  · simp [hk]
  · rw [if_neg hk]
    simp [List.append_assoc]

theorem matchPhaseRemove_none (cfg : Config α) (st : RemoveState α) (c : List α)
    (h : searchGreedy cfg.tokStart cfg.tokStop (st.buffer ++ c) = none) :
    matchPhaseRemove cfg st c = { st with buffer := st.buffer ++ c } := by
  unfold matchPhaseRemove
  rw [h]

theorem matchPhaseRemove_some (cfg : Config α) (st : RemoveState α) (c : List α)
    {i e : Nat}
    (h : searchGreedy cfg.tokStart cfg.tokStop (st.buffer ++ c) = some (i, e)) :
    matchPhaseRemove cfg st c =
      { st with
        buffer := (st.buffer ++ c).take i ++ (st.buffer ++ c).drop e
        discarded := st.discarded ++ ((st.buffer ++ c).take i ++ (st.buffer ++ c).drop e)
        thought_removed := st.thought_removed + 1
        events := st.events ++
          [⟨Status.success, Msg.removedBlock (st.thought_removed + 1)⟩] } := by
  unfold matchPhaseRemove
  rw [h]

theorem stepRemove_of_removed_zero (cfg : Config α) (st : RemoveState α) (c : List α)
    (h : (stepRemove cfg st c).thought_removed = 0) :
    st.thought_removed = 0 ∧
    outFlat (stepRemove cfg st c) ++ (stepRemove cfg st c).buffer =
      outFlat st ++ st.buffer ++ c := by
  unfold stepRemove at h ⊢
  obtain ⟨k, _, _, _, hrem⟩ := emitPhaseRemove_fifo cfg (matchPhaseRemove cfg st c)
  rw [hrem] at h
  cases hsg : searchGreedy cfg.tokStart cfg.tokStop (st.buffer ++ c) with
  | some p =>
    obtain ⟨i, e⟩ := p
    rw [matchPhaseRemove_some cfg st c hsg] at h
    simp at h
  | none =>
    rw [matchPhaseRemove_none cfg st c hsg] at h ⊢
    refine ⟨h, ?_⟩
    rw [emitPhaseRemove_conserve]
    unfold outFlat
    simp

theorem foldRemove_of_removed_zero (cfg : Config α) (chunks : List (List α)) :
    ∀ st : RemoveState α,
      (chunks.foldl (stepRemove cfg) st).thought_removed = 0 →
      st.thought_removed = 0 ∧
      outFlat (chunks.foldl (stepRemove cfg) st) ++
          (chunks.foldl (stepRemove cfg) st).buffer =
        outFlat st ++ st.buffer ++ chunks.flatten := by
  induction chunks with
  | nil =>
    intro st h
    rw [List.foldl_nil] at h
    refine ⟨h, ?_⟩
    simp
  | cons c cs ih =>
    intro st h
    rw [List.foldl_cons] at h ⊢
    obtain ⟨h1, h2⟩ := ih (stepRemove cfg st c) h
    obtain ⟨h3, h4⟩ := stepRemove_of_removed_zero cfg st c h1
    refine ⟨h3, ?_⟩
    rw [h2, h4]
    simp [List.append_assoc]

/-! ## Claim theorems -/

/-- C2: after processing a chunk in remove mode, if the buffer holds no
pending start-delimiter match then only a bounded suffix (of length at most
`len_start_thought = int(1.5 * len(start_thought))`) is retained, and
everything before that suffix has been emitted: the concatenation of output
and retained buffer equals the concatenation of output and buffer right
after match removal.  The buffer cannot grow unboundedly while no match is
in progress. -/
theorem remove_buffer_bounded_after_step (cfg : Config α) (st : RemoveState α)
    (content : List α)
    (h : firstMatch cfg.tokStart (stepRemove cfg st content).buffer = none) :
    (stepRemove cfg st content).buffer.length ≤ lenStartThought cfg ∧
    outFlat (stepRemove cfg st content) ++ (stepRemove cfg st content).buffer =
      outFlat (matchPhaseRemove cfg st content) ++
        (matchPhaseRemove cfg st content).buffer := by
  refine ⟨?_, by unfold stepRemove; exact emitPhaseRemove_conserve cfg _⟩
  unfold stepRemove at h ⊢
  generalize hm : matchPhaseRemove cfg st content = st1 at h ⊢
  unfold emitPhaseRemove at h ⊢
  by_cases h0 : st1.buffer = []
  · rw [if_pos h0]
    have hlen : st1.buffer.length = 0 := by rw [h0]; rfl
    omega
  · rw [if_neg h0] at h ⊢
    by_cases h1 : (firstMatch cfg.tokStart st1.buffer).isSome
    · rw [if_pos h1] at h
      simp only at h
      rw [h] at h1
      simp at h1
    · rw [if_neg h1] at h ⊢
      by_cases h2 : lenStartThought cfg < st1.buffer.length
      · rw [if_pos h2]
        simp only [List.length_drop]
        omega
      · rw [if_neg h2]
        omega

/-- C2 witness: a concrete chunk on which the retained buffer is within the
bound. -/
theorem remove_buffer_bounded_after_step_witness :
    (stepRemove ⟨[1], [2], [], []⟩ (initRemove (α := Nat)) [0, 0]).buffer.length ≤
      lenStartThought (⟨[1], [2], [], []⟩ : Config Nat) :=
  (remove_buffer_bounded_after_step _ _ _ (by decide)).1

/-- C3: if the stream ends while the buffer contains a start delimiter that
was never closed (no full pattern match), the remove pipe emits the
"It seems a thought was never finished" notification on the error channel
and still yields the buffered text verbatim, so nothing is dropped. -/
theorem remove_unfinished_thought_reported_and_flushed (cfg : Config α)
    (chunks : List (List α))
    (hb : (preFlushRemove cfg chunks).buffer ≠ [])
    (hnm : searchGreedy cfg.tokStart cfg.tokStop (preFlushRemove cfg chunks).buffer =
      none)
    (hst : (firstMatch cfg.tokStart (preFlushRemove cfg chunks).buffer).isSome) :
    (runRemove cfg chunks).out =
      (preFlushRemove cfg chunks).out ++ [(preFlushRemove cfg chunks).buffer] ∧
    Event.mk Status.error Msg.neverFinished ∈ (runRemove cfg chunks).events := by
  unfold runRemove flushRemove
  generalize (preFlushRemove cfg chunks) = st at hb hnm hst
  have hy : flushYieldRemove cfg st =
      { st with
        out := st.out ++ [st.buffer]
        events := st.events ++ [⟨Status.error, Msg.neverFinished⟩] } := by
    unfold flushYieldRemove
    rw [if_neg hb, hnm, if_pos hst]
  rw [hy]
  unfold neverFoundCheck
  by_cases hr : st.thought_removed = 0
  · rw [if_pos hr]
    refine ⟨rfl, ?_⟩
    simp
  · rw [if_neg hr]
    refine ⟨rfl, ?_⟩
    simp

/-- C3 witness: a stream that opens a thought block and never closes it. -/
theorem remove_unfinished_thought_reported_and_flushed_witness :
    (runRemove (⟨[1], [2], [], []⟩ : Config Nat) [[1, 0]]).out =
      (preFlushRemove (⟨[1], [2], [], []⟩ : Config Nat) [[1, 0]]).out ++
        [(preFlushRemove (⟨[1], [2], [], []⟩ : Config Nat) [[1, 0]]).buffer] ∧
    Event.mk Status.error Msg.neverFinished ∈
      (runRemove (⟨[1], [2], [], []⟩ : Config Nat) [[1, 0]]).events :=
  remove_unfinished_thought_reported_and_flushed _ _ (by decide) (by decide) (by decide)

/-- C5 (amended): emission in the remove pipe is first-in-first-out — each
step emits a prefix of the pending buffer and retains the suffix, so remove
mode preserves the order of the surviving input text.  The hide pipe does
not satisfy the claim as stated: see the counterexample, where the rewrapped
block is yielded before the buffered text that preceded it. -/
theorem remove_emit_is_fifo (cfg : Config α) (st : RemoveState α) :
    ∃ k, k ≤ st.buffer.length ∧
      (emitPhaseRemove cfg st).out =
        st.out ++ (if k = 0 then [] else [st.buffer.take k]) ∧
      (emitPhaseRemove cfg st).buffer = st.buffer.drop k := by
  obtain ⟨k, hk, hout, hbuf, _⟩ := emitPhaseRemove_fifo cfg st
  exact ⟨k, hk, hout, hbuf⟩

/-- C5 counterexample: the hide pipe emits the rewrapped thought block
before the text that preceded it in the input.  With start `[1]`, stop `[2]`,
open tag `[8]`, close tag `[9]` and the single chunk `[0, 1, 3, 2, 4]`
(text `0`, then a block wrapping `3`, then `4`), the emitted fragments are
the rewrapped block `[8, 3, 9]` first and the preceding text `0` only
afterwards — not the order required by the claim. -/
theorem hide_emits_block_before_preceding_text :
    (runHide (⟨[1], [2], [8], [9]⟩ : Config Nat) [[0, 1, 3, 2, 4]]).out =
      [[8, 3, 9], [0], [4]] ∧
    (runHide (⟨[1], [2], [8], [9]⟩ : Config Nat) [[0, 1, 3, 2, 4]]).out ≠
      [[0], [8, 3, 9], [4]] := by
  constructor
  · decide
  · decide

/-- C6 (amended): the pipes' full-block pattern is
`start_pattern + "(.*)?" + end_pattern` with a greedy (not non-greedy) body,
so a successful search starts at the leftmost viable start-delimiter
occurrence and ends at the end of the rightmost stop-delimiter occurrence of
the whole buffer — with one start delimiter followed by two or more end
delimiters, the span ends at the last end delimiter, not the first. -/
theorem pipes_pattern_greedy_leftmost_longest {tokStart tokStop s : List α}
    (hsp : tokStop ≠ []) {i e : Nat}
    (h : searchGreedy tokStart tokStop s = some (i, e)) :
    matchesAt tokStart s i = true ∧
    tokStop.length ≤ e ∧
    matchesAt tokStop s (e - tokStop.length) = true ∧
    i + tokStart.length ≤ e - tokStop.length ∧
    (∀ j, matchesAt tokStop s j = true → j ≤ e - tokStop.length) ∧
    (∀ i', i' < i → ¬ viableAt tokStart tokStop s i') := by
  obtain ⟨hss, hlm, hle⟩ := searchGreedy_some_elim h
  have hv := searchStart_some hss
  have hmin := searchStart_min hss
  have hm := lastMatch_some hlm
  have hmax := lastMatch_max hsp hlm
  obtain ⟨hstart, j0, hj0, hm0⟩ := hv
  have h4 : i + tokStart.length ≤ e - tokStop.length := le_trans hj0 (hmax j0 hm0)
  exact ⟨hstart, hle, hm, h4, hmax, hmin⟩

/-- C6 witness: on `[1, 0, 2, 0, 2]` with start `[1]`, stop `[2]` the match
is `(0, 5)`; the start literal matches at 0 and the stop literal matches at
index 4, the last stop occurrence. -/
theorem pipes_pattern_greedy_leftmost_longest_witness :
    matchesAt ([1] : List Nat) [1, 0, 2, 0, 2] 0 = true ∧
    matchesAt ([2] : List Nat) [1, 0, 2, 0, 2] 4 = true :=
  have h := @pipes_pattern_greedy_leftmost_longest Nat _ [1] [2] [1, 0, 2, 0, 2]
    (by decide) 0 5 (by decide)
  ⟨h.1, by simpa using h.2.2.1⟩

/-- Helper: flush equation when the buffer is empty. -/
theorem flushYieldRemove_nil (cfg : Config α) (st : RemoveState α)
    (h0 : st.buffer = []) : flushYieldRemove cfg st = st := by
  unfold flushYieldRemove
  rw [if_pos h0]

/-- Helper: flush equation on a final full match. -/
theorem flushYieldRemove_match (cfg : Config α) (st : RemoveState α)
    (h0 : st.buffer ≠ []) {i e : Nat}
    (hsg : searchGreedy cfg.tokStart cfg.tokStop st.buffer = some (i, e)) :
    flushYieldRemove cfg st =
      { st with
        buffer := st.buffer.take i ++ st.buffer.drop e
        thought_removed := st.thought_removed + 1
        out := st.out ++ [st.buffer.take i ++ st.buffer.drop e]
        events := st.events ++
          [⟨Status.success, Msg.removedBlock (st.thought_removed + 1)⟩] } := by
  unfold flushYieldRemove
  rw [if_neg h0, hsg]

/-- Helper: flush equation on an unterminated start delimiter. -/
theorem flushYieldRemove_pending (cfg : Config α) (st : RemoveState α)
    (h0 : st.buffer ≠ [])
    (hsg : searchGreedy cfg.tokStart cfg.tokStop st.buffer = none)
    (h1 : (firstMatch cfg.tokStart st.buffer).isSome) :
    flushYieldRemove cfg st =
      { st with
        out := st.out ++ [st.buffer]
        events := st.events ++ [⟨Status.error, Msg.neverFinished⟩] } := by
  unfold flushYieldRemove
  rw [if_neg h0, hsg, if_pos h1]

/-- Helper: flush equation when the final buffer is plain text. -/
theorem flushYieldRemove_plain (cfg : Config α) (st : RemoveState α)
    (h0 : st.buffer ≠ [])
    (hsg : searchGreedy cfg.tokStart cfg.tokStop st.buffer = none)
    (h1 : ¬ (firstMatch cfg.tokStart st.buffer).isSome) :
    flushYieldRemove cfg st = { st with out := st.out ++ [st.buffer] } := by
  unfold flushYieldRemove
  rw [if_neg h0, hsg, if_neg h1]

/-- Helper: the flush's yield block does not undo removals, and when it has
removed nothing overall it has yielded the buffer verbatim. -/
theorem flushYieldRemove_of_removed_zero (cfg : Config α) (st : RemoveState α)
    (h : (flushYieldRemove cfg st).thought_removed = 0) :
    st.thought_removed = 0 ∧
    outFlat (flushYieldRemove cfg st) = outFlat st ++ st.buffer := by
  by_cases h0 : st.buffer = []
  · rw [flushYieldRemove_nil cfg st h0] at h ⊢
    rw [h0]
    exact ⟨h, by simp [outFlat]⟩
  · cases hsg : searchGreedy cfg.tokStart cfg.tokStop st.buffer with
    | some p =>
      obtain ⟨i, e⟩ := p
      rw [flushYieldRemove_match cfg st h0 hsg] at h
      simp at h
    | none =>
      by_cases h1 : (firstMatch cfg.tokStart st.buffer).isSome
      · rw [flushYieldRemove_pending cfg st h0 hsg h1] at h ⊢
        exact ⟨h, by simp [outFlat]⟩
      · rw [flushYieldRemove_plain cfg st h0 hsg h1] at h ⊢
        exact ⟨h, by simp [outFlat]⟩

/-- Helper: `neverFoundCheck` only appends an event. -/
theorem neverFoundCheck_fields (st : RemoveState α) :
    (neverFoundCheck st).thought_removed = st.thought_removed ∧
    (neverFoundCheck st).out = st.out ∧
    (neverFoundCheck st).buffer = st.buffer := by
  unfold neverFoundCheck
  by_cases h : st.thought_removed = 0
  · rw [if_pos h]
    exact ⟨rfl, rfl, rfl⟩
  · rw [if_neg h]
    exact ⟨rfl, rfl, rfl⟩

/-- C8 (amended): if the thought-block count is 0 at end-of-stream, the
remove pipe raises the "Thought block never found" notification — through
the error channel (`err`, status `error`), not as a non-error informational
event — and the emitted output is identical to the input. -/
theorem remove_never_found_reported_and_passthrough (cfg : Config α)
    (chunks : List (List α))
    (h : (runRemove cfg chunks).thought_removed = 0) :
    Event.mk Status.error Msg.neverFound ∈ (runRemove cfg chunks).events ∧
    outFlat (runRemove cfg chunks) = chunks.flatten := by
  unfold runRemove flushRemove at h ⊢
  have hyrem : (flushYieldRemove cfg (preFlushRemove cfg chunks)).thought_removed = 0 := by
    rw [(neverFoundCheck_fields _).1] at h
    exact h
  obtain ⟨hpre0, hyout⟩ := flushYieldRemove_of_removed_zero cfg _ hyrem
  have hfold := foldRemove_of_removed_zero cfg chunks initRemove hpre0
  constructor
  · unfold neverFoundCheck
    rw [if_pos hyrem]
    simp
  · have : outFlat (neverFoundCheck (flushYieldRemove cfg (preFlushRemove cfg chunks))) =
        outFlat (flushYieldRemove cfg (preFlushRemove cfg chunks)) := by
      unfold outFlat
      rw [(neverFoundCheck_fields _).2.1]
    rw [this, hyout]
    have h2 := hfold.2
    unfold preFlushRemove
    unfold preFlushRemove at h2
    rw [h2]
    simp [outFlat, initRemove]

/-- C8 witness: a stream with no delimiters at all. -/
theorem remove_never_found_reported_and_passthrough_witness :
    Event.mk Status.error Msg.neverFound ∈
      (runRemove (⟨[1], [2], [], []⟩ : Config Nat) [[0]]).events ∧
    outFlat (runRemove (⟨[1], [2], [], []⟩ : Config Nat) [[0]]) =
      ([[0]] : List (List Nat)).flatten :=
  remove_never_found_reported_and_passthrough _ _ (by decide)

/-- C8 counterexample: the "Thought block never found" notification is sent
through `err(...)`, i.e. with status `error` and `done=True` — the run's sole
event is `⟨error, neverFound⟩`, so the notification is not the non-error
informational event the claim describes. -/
theorem never_found_notification_is_error :
    (runRemove (⟨[1], [2], [], []⟩ : Config Nat) [[0]]).events =
      [Event.mk Status.error Msg.neverFound] := by
  decide

/-- C9 (amended): in the remove pipe's streaming loop, a line that fails
JSON parsing is skipped and the stream continues; but a line that parses as
JSON and lacks the `choices[0].delta` path raises (the `KeyError` is caught
and re-raised as a generic `Exception`), aborting the stream — only the
JSON-parse-failure case is skipped. -/
theorem bad_json_skipped_but_missing_path_aborts (cfg : Config Char)
    (st : RemoveState Char) (l : SSELine) (ls : List SSELine)
    (hraw : l.raw ≠ "") (hdone : l.isDone = false) :
    (l.payload = none → runRemoveLines cfg st (l :: ls) = runRemoveLines cfg st ls) ∧
    (∀ parsed, l.payload = some parsed →
      upstreamErrCheck parsed = .ok false →
      getDeltaContent parsed = .error (.exc "KeyError") →
      runRemoveLines cfg st (l :: ls) = .error (.exc "KeyError")) := by
  have hdone' : ¬ (l.isDone = true) := by rw [hdone]; simp
  constructor
  · intro hp
    conv_lhs => unfold runRemoveLines
    rw [if_neg hraw, if_neg hdone', hp]
  · intro parsed hp herr hget
    unfold runRemoveLines
    rw [if_neg hraw, if_neg hdone', hp]
    dsimp only
    rw [herr]
    dsimp only
    rw [hget]

/-- C9 witness: a malformed-JSON line is skipped (the run equals the run on
the remaining lines); a well-formed JSON line `{}` without the content path
aborts the run with the re-raised `KeyError` exception. -/
theorem bad_json_skipped_but_missing_path_aborts_witness :
    runRemoveLines ⟨"``` thinking".data, "```".data, [], []⟩ initRemove
        [⟨"data: not json", false, none⟩] =
      runRemoveLines ⟨"``` thinking".data, "```".data, [], []⟩ initRemove [] ∧
    runRemoveLines ⟨"``` thinking".data, "```".data, [], []⟩ initRemove
        [⟨"data: {}", false, some (J.obj [])⟩] =
      .error (.exc "KeyError") :=
  ⟨(bad_json_skipped_but_missing_path_aborts _ _ ⟨"data: not json", false, none⟩ []
      (by decide) rfl).1 rfl,
   (bad_json_skipped_but_missing_path_aborts _ _ ⟨"data: {}", false, some (J.obj [])⟩ []
      (by decide) rfl).2 (J.obj []) rfl rfl rfl⟩

/-- C9 counterexample: a line whose JSON parses to `{}` — valid JSON lacking
`choices[0].delta` — does not get skipped: the remove pipe's loop aborts the
stream with a raised exception instead of continuing. -/
theorem missing_path_line_not_skipped :
    runRemoveLines ⟨"``` thinking".data, "```".data, [], []⟩ initRemove
        [⟨"data: {}", false, some (J.obj [])⟩,
         ⟨"data: [DONE]", true, none⟩] =
      .error (.exc "KeyError") := by
  rfl

/-! ### Shape lemmas for the Python JSON accessors -/

theorem pyContains_not_exc (j : J) (k m : String) :
    pyContains j k ≠ .error (.exc m) := by
  cases j <;> simp [pyContains]

theorem pySubscriptKey_not_exc (j : J) (k m : String) :
    pySubscriptKey j k ≠ .error (.exc m) := by
  cases j with
  | obj kvs =>
    simp only [pySubscriptKey]
    cases hl : kvs.lookup k <;> simp
  | null => simp [pySubscriptKey]
  | b x => simp [pySubscriptKey]
  | i x => simp [pySubscriptKey]
  | s x => simp [pySubscriptKey]
  | arr xs => simp [pySubscriptKey]

theorem pySubscriptIdx_not_exc (j : J) (n : Nat) (m : String) :
    pySubscriptIdx j n ≠ .error (.exc m) := by
  cases j with
  | arr xs =>
    simp only [pySubscriptIdx]
    cases hl : xs[n]? <;> simp
  | s x =>
    simp only [pySubscriptIdx]
    cases hl : x.data[n]? <;> simp
  | null => simp [pySubscriptIdx]
  | b x => simp [pySubscriptIdx]
  | i x => simp [pySubscriptIdx]
  | obj kvs => simp [pySubscriptIdx]

theorem pyGet_not_exc (j : J) (k : String) (d : J) (m : String) :
    pyGet j k d ≠ .error (.exc m) := by
  cases j <;> simp [pyGet]

theorem pySubscriptKey_ok_shape {j : J} {k : String} {v : J}
    (h : pySubscriptKey j k = .ok v) :
    ∃ kvs, j = .obj kvs ∧ kvs.lookup k = some v := by
  cases j with
  | obj kvs =>
    simp only [pySubscriptKey] at h
    cases hl : kvs.lookup k with
    | some w => rw [hl] at h; cases h; exact ⟨kvs, rfl, hl⟩
    | none => rw [hl] at h; cases h
  | null => cases h
  | b x => cases h
  | i x => cases h
  | s x => cases h
  | arr xs => cases h

theorem pyGet_ok_shape {j : J} {k : String} {d v : J}
    (h : pyGet j k d = .ok v) :
    ∃ kvs, j = .obj kvs ∧ v = (kvs.lookup k).getD d := by
  cases j with
  | obj kvs =>
    simp only [pyGet] at h
    cases h
    exact ⟨kvs, rfl, rfl⟩
  | null => cases h
  | b x => cases h
  | i x => cases h
  | s x => cases h
  | arr xs => cases h

theorem upstreamErrCheck_not_exc (parsed : J) (m : String) :
    upstreamErrCheck parsed ≠ .error (.exc m) := by
  unfold upstreamErrCheck
  cases h1 : pyContains parsed "error" with
  | error e =>
    dsimp only
    intro hc
    have he : e = PyErr.exc m := by injection hc
    rw [he] at h1
    exact pyContains_not_exc parsed "error" m h1
  | ok b1 =>
    cases b1 with
    | false => dsimp only; simp
    | true =>
      dsimp only
      cases h2 : pySubscriptKey parsed "error" with
      | error e =>
        dsimp only
        intro hc
        have he : e = PyErr.exc m := by injection hc
        rw [he] at h2
        exact pySubscriptKey_not_exc parsed "error" m h2
      | ok e1 =>
        dsimp only
        cases h3 : pyContains e1 "message" with
        | error e =>
          dsimp only
          intro hc
          have he : e = PyErr.exc m := by injection hc
          rw [he] at h3
          exact pyContains_not_exc e1 "message" m h3
        | ok b2 =>
          cases b2 with
          | false => dsimp only; simp
          | true =>
            dsimp only
            cases h5 : pySubscriptKey e1 "message" with
            | error e =>
              dsimp only
              intro hc
              have he : e = PyErr.exc m := by injection hc
              rw [he] at h5
              exact pySubscriptKey_not_exc e1 "message" m h5
            | ok mv => dsimp only; simp

theorem getDeltaContent_exc {parsed : J} {m : String}
    (h : getDeltaContent parsed = .error (.exc m)) : m = "KeyError" := by
  unfold getDeltaContent at h
  cases h1 : pySubscriptKey parsed "choices" with
  | error e =>
    rw [h1] at h
    cases e with
    | keyError => cases h; rfl
    | exc m2 => exact absurd h1 (pySubscriptKey_not_exc parsed "choices" m2)
    | typeError => cases h
    | indexError => cases h
    | attributeError => cases h
  | ok ch =>
    rw [h1] at h
    dsimp only at h
    cases h2 : pySubscriptIdx ch 0 with
    | error e =>
      rw [h2] at h
      cases e with
      | keyError => cases h; rfl
      | exc m2 => exact absurd h2 (pySubscriptIdx_not_exc ch 0 m2)
      | typeError => cases h
      | indexError => cases h
      | attributeError => cases h
    | ok c0 =>
      rw [h2] at h
      dsimp only at h
      cases h3 : pySubscriptKey c0 "delta" with
      | error e =>
        rw [h3] at h
        cases e with
        | keyError => cases h; rfl
        | exc m2 => exact absurd h3 (pySubscriptKey_not_exc c0 "delta" m2)
        | typeError => cases h
        | indexError => cases h
        | attributeError => cases h
      | ok d =>
        rw [h3] at h
        dsimp only at h
        cases h4 : pyGet d "content" (.s "") with
        | error e =>
          rw [h4] at h
          cases e with
          | keyError => cases h; rfl
          | exc m2 => exact absurd h4 (pyGet_not_exc d "content" _ m2)
          | typeError => cases h
          | indexError => cases h
          | attributeError => cases h
        | ok v =>
          rw [h4] at h
          cases h

theorem getDeltaContent_ok_shape {parsed : J} {v : J}
    (h : getDeltaContent parsed = .ok v) :
    ∃ kvs dkvs ckvs rest, parsed = .obj kvs ∧
      kvs.lookup "choices" = some (.arr (.obj dkvs :: rest)) ∧
      dkvs.lookup "delta" = some (.obj ckvs) ∧
      v = (ckvs.lookup "content").getD (.s "") := by
  unfold getDeltaContent at h
  cases h1 : pySubscriptKey parsed "choices" with
  | error e => rw [h1] at h; cases e <;> cases h
  | ok ch =>
    rw [h1] at h
    dsimp only at h
    cases h2 : pySubscriptIdx ch 0 with
    | error e => rw [h2] at h; cases e <;> cases h
    | ok c0 =>
      rw [h2] at h
      dsimp only at h
      cases h3 : pySubscriptKey c0 "delta" with
      | error e => rw [h3] at h; cases e <;> cases h
      | ok d =>
        rw [h3] at h
        dsimp only at h
        cases h4 : pyGet d "content" (.s "") with
        | error e => rw [h4] at h; cases e <;> cases h
        | ok w =>
          rw [h4] at h
          cases h
          obtain ⟨kvs, hj, hkvs⟩ := pySubscriptKey_ok_shape h1
          obtain ⟨dkvs, hc0, hdkvs⟩ := pySubscriptKey_ok_shape h3
          obtain ⟨ckvs, hd, hget⟩ := pyGet_ok_shape h4
          subst hj
          subst hc0
          subst hd
          cases ch with
          | arr xs =>
            simp only [pySubscriptIdx] at h2
            cases xs with
            | nil => cases h2
            | cons x rest =>
              simp at h2
              subst h2
              exact ⟨kvs, dkvs, ckvs, rest, rfl, hkvs, hdkvs, hget⟩
          | s str =>
            simp only [pySubscriptIdx] at h2
            cases hsd : str.data[0]? with
            | some c =>
              rw [hsd] at h2
              cases h2
            | none => rw [hsd] at h2; cases h2
          | null => cases h2
          | b x => cases h2
          | i x => cases h2
          | obj kvs2 => cases h2

/-- Helper: `parse_chunk` raises `DONE` only on the `[DONE]` sentinel. -/
theorem parseChunk_done {l : SSELine}
    (h : parseChunk l = .error (.exc "DONE")) : l.isDone = true := by
  by_cases hd : l.isDone = true
  · exact hd
  · exfalso
    unfold parseChunk at h
    rw [if_neg hd] at h
    cases hp : l.payload with
    | none =>
      rw [hp] at h
      dsimp only at h
      injection h with h1
      injection h1 with h2
      exact absurd h2 (by decide)
    | some parsed =>
      rw [hp] at h
      dsimp only at h
      cases hu : upstreamErrCheck parsed with
      | error e =>
        rw [hu] at h
        dsimp only at h
        injection h with h1
        rw [h1] at hu
        exact upstreamErrCheck_not_exc parsed "DONE" hu
      | ok b =>
        cases b with
        | true =>
          rw [hu] at h
          dsimp only at h
          injection h with h1
          injection h1 with h2
          exact absurd h2 (by decide)
        | false =>
          rw [hu] at h
          dsimp only at h
          cases hg : getDeltaContent parsed with
          | error e =>
            rw [hg] at h
            dsimp only at h
            injection h with h1
            rw [h1] at hg
            exact absurd (getDeltaContent_exc hg) (by decide)
          | ok content =>
            rw [hg] at h
            dsimp only at h
            by_cases ht : pyTruthy content = true
            · rw [if_pos ht] at h
              cases h
            · rw [if_neg ht] at h
              injection h with h1
              injection h1 with h2
              exact absurd h2 (by decide)

/-- Helper: a skipped (`CONTINUE`) line contributes no spec-side content delta. -/
theorem parseChunk_continue_spec {l : SSELine} (ls : List SSELine)
    (h : parseChunk l = .error (.exc "CONTINUE")) :
    specContentDeltas (l :: ls) = specContentDeltas ls := by
  by_cases hd : l.isDone = true
  · exfalso
    unfold parseChunk at h
    rw [if_pos hd] at h
    injection h with h1
    injection h1 with h2
    exact absurd h2 (by decide)
  · unfold parseChunk at h
    rw [if_neg hd] at h
    conv_lhs => unfold specContentDeltas
    rw [if_neg hd]
    cases hp : l.payload with
    | none => rfl
    | some parsed =>
      rw [hp] at h
      dsimp only at h
      cases hu : upstreamErrCheck parsed with
      | error e =>
        rw [hu] at h
        dsimp only at h
        injection h with h1
        rw [h1] at hu
        exact absurd hu (upstreamErrCheck_not_exc parsed "CONTINUE")
      | ok b =>
        cases b with
        | true =>
          rw [hu] at h
          dsimp only at h
          injection h with h1
          injection h1 with h2
          exact absurd h2 (by decide)
        | false =>
          rw [hu] at h
          dsimp only at h
          cases hg : getDeltaContent parsed with
          | error e =>
            rw [hg] at h
            dsimp only at h
            injection h with h1
            rw [h1] at hg
            exact absurd (getDeltaContent_exc hg) (by decide)
          | ok content =>
            rw [hg] at h
            dsimp only at h
            by_cases ht : pyTruthy content = true
            · rw [if_pos ht] at h
              cases h
            · obtain ⟨kvs, dkvs, ckvs, rest, hobj, hch, hdel, hcontent⟩ :=
                getDeltaContent_ok_shape hg
              subst hobj
              dsimp only
              rw [hch]
              dsimp only
              rw [hdel]
              dsimp only
              cases hcc : ckvs.lookup "content" with
              | none => rfl
              | some w =>
                rw [hcc] at hcontent
                dsimp only [Option.getD] at hcontent
                subst hcontent
                cases content with
                | s c =>
                  dsimp only
                  have hce : c.isEmpty = true := by
                    revert ht
                    simp [pyTruthy]
                  rw [if_pos hce]
                | null => rfl
                | b x => rfl
                | i x => rfl
                | arr xs => rfl
                | obj kvs2 => rfl

/-- Helper: a content-delta line contributes exactly its delta string on the
spec side. -/
theorem parseChunk_ok_spec {l : SSELine} {c : String} (ls : List SSELine)
    (h : parseChunk l = .ok (.s c)) :
    specContentDeltas (l :: ls) = c :: specContentDeltas ls := by
  by_cases hd : l.isDone = true
  · exfalso
    unfold parseChunk at h
    rw [if_pos hd] at h
    cases h
  · unfold parseChunk at h
    rw [if_neg hd] at h
    conv_lhs => unfold specContentDeltas
    rw [if_neg hd]
    cases hp : l.payload with
    | none =>
      rw [hp] at h
      cases h
    | some parsed =>
      rw [hp] at h
      dsimp only at h
      cases hu : upstreamErrCheck parsed with
      | error e =>
        rw [hu] at h
        cases h
      | ok b =>
        cases b with
        | true =>
          rw [hu] at h
          cases h
        | false =>
          rw [hu] at h
          dsimp only at h
          cases hg : getDeltaContent parsed with
          | error e =>
            rw [hg] at h
            cases h
          | ok content =>
            rw [hg] at h
            dsimp only at h
            by_cases ht : pyTruthy content = true
            · rw [if_pos ht] at h
              injection h with h1
              subst h1
              obtain ⟨kvs, dkvs, ckvs, rest, hobj, hch, hdel, hcontent⟩ :=
                getDeltaContent_ok_shape hg
              subst hobj
              dsimp only
              rw [hch]
              dsimp only
              rw [hdel]
              dsimp only
              cases hcc : ckvs.lookup "content" with
              | none =>
                rw [hcc] at hcontent
                dsimp only [Option.getD] at hcontent
                injection hcontent with hc2
                subst hc2
                exact absurd ht (by decide)
              | some w =>
                rw [hcc] at hcontent
                dsimp only [Option.getD] at hcontent
                subst hcontent
                dsimp only
                have hce : c.isEmpty = false := by
                  revert ht
                  simp [pyTruthy]
                rw [hce]
                rfl
            · rw [if_neg ht] at h
              cases h

/-- C4 (amended): the hide pipe's disabled (pass-through) branch yields
exactly the upstream content deltas: whenever the loop completes without
raising, the emitted fragments are the spec-side content deltas of the
lines before the `[DONE]` sentinel, so their concatenations agree. -/
theorem hide_disabled_is_passthrough :
    ∀ (lines : List SSELine) (outs : List String),
      runHideDisabled lines = .ok outs →
      outs = specContentDeltas lines ∧
      String.join outs = String.join (specContentDeltas lines) := by
  intro lines
  induction lines with
  | nil =>
    intro outs h
    injection h with h1
    subst h1
    exact ⟨rfl, rfl⟩
  | cons l ls ih =>
    intro outs h
    unfold runHideDisabled at h
    cases hpc : parseChunk l with
    | ok content =>
      rw [hpc] at h
      cases content with
      | s c =>
        dsimp only at h
        cases hr : runHideDisabled ls with
        | ok outs' =>
          rw [hr] at h
          simp only [Except.map] at h
          injection h with h1
          obtain ⟨ho1, _⟩ := ih outs' hr
          rw [parseChunk_ok_spec ls hpc]
          subst h1
          rw [ho1]
          exact ⟨rfl, rfl⟩
        | error e =>
          rw [hr] at h
          simp only [Except.map] at h
          cases h
      | null => cases h
      | b x => cases h
      | i x => cases h
      | arr xs => cases h
      | obj kvs => cases h
    | error e =>
      rw [hpc] at h
      cases e with
      | exc m =>
        dsimp only at h
        by_cases hm : m = "DONE"
        · rw [if_pos hm] at h
          injection h with h1
          subst h1
          subst hm
          have hd := parseChunk_done hpc
          unfold specContentDeltas
          rw [if_pos hd]
          exact ⟨rfl, rfl⟩
        · rw [if_neg hm] at h
          by_cases hm2 : m = "CONTINUE"
          · rw [if_pos hm2] at h
            subst hm2
            obtain ⟨ho1, ho2⟩ := ih outs h
            rw [parseChunk_continue_spec ls hpc]
            exact ⟨ho1, ho2⟩
          · rw [if_neg hm2] at h
            cases h
      | keyError => cases h
      | typeError => cases h
      | indexError => cases h
      | attributeError => cases h

/-- C4 witness: a content line followed by the sentinel passes through. -/
theorem hide_disabled_is_passthrough_witness :
    runHideDisabled
        [⟨"data: \x7b\"choices\": [\x7b\"delta\": \x7b\"content\": \"hi\"\x7d\x7d]\x7d", false,
          some (J.obj [("choices",
            J.arr [J.obj [("delta", J.obj [("content", J.s "hi")])]])])⟩,
         ⟨"data: [DONE]", true, none⟩] = .ok ["hi"] ∧
    (["hi"] : List String) = specContentDeltas
        [⟨"data: \x7b\"choices\": [\x7b\"delta\": \x7b\"content\": \"hi\"\x7d\x7d]\x7d", false,
          some (J.obj [("choices",
            J.arr [J.obj [("delta", J.obj [("content", J.s "hi")])]])])⟩,
         ⟨"data: [DONE]", true, none⟩] :=
  ⟨rfl, (hide_disabled_is_passthrough
      [⟨"data: \x7b\"choices\": [\x7b\"delta\": \x7b\"content\": \"hi\"\x7d\x7d]\x7d", false,
        some (J.obj [("choices",
          J.arr [J.obj [("delta", J.obj [("content", J.s "hi")])]])])⟩,
       ⟨"data: [DONE]", true, none⟩] ["hi"] rfl).1⟩

/-- C4 counterexample: the remove pipe's disabled branch
(`for line in r.iter_lines(): yield line`) yields the raw SSE lines, `data:`
framing and JSON included — its output concatenation differs from the
concatenation of the upstream content deltas. -/
theorem remove_disabled_yields_raw_lines_not_deltas :
    runRemoveDisabled
        [⟨"data: \x7b\"choices\": [\x7b\"delta\": \x7b\"content\": \"hi\"\x7d\x7d]\x7d", false,
          some (J.obj [("choices",
            J.arr [J.obj [("delta", J.obj [("content", J.s "hi")])]])])⟩] =
      ["data: \x7b\"choices\": [\x7b\"delta\": \x7b\"content\": \"hi\"\x7d\x7d]\x7d"] ∧
    specContentDeltas
        [⟨"data: \x7b\"choices\": [\x7b\"delta\": \x7b\"content\": \"hi\"\x7d\x7d]\x7d", false,
          some (J.obj [("choices",
            J.arr [J.obj [("delta", J.obj [("content", J.s "hi")])]])])⟩] =
      ["hi"] ∧
    String.join
        (runRemoveDisabled
          [⟨"data: \x7b\"choices\": [\x7b\"delta\": \x7b\"content\": \"hi\"\x7d\x7d]\x7d", false,
            some (J.obj [("choices",
              J.arr [J.obj [("delta", J.obj [("content", J.s "hi")])]])])⟩]) ≠
      String.join ["hi"] := by
  refine ⟨rfl, rfl, ?_⟩
  decide

/-- Helper: overwriting the last message twice keeps only the second write. -/
theorem setLast_setLast (l : List (List Char)) (a b : List Char) :
    setLast (setLast l a) b = setLast l b := by
  unfold setLast
  rw [List.dropLast_concat]

/-- C7 (amended): in `thinking_filter.py` (v0.1), when the last message's
content matches the thought pattern, its stripped form is non-empty and
removing thoughts would strip it down to the empty string, the outlet keeps
the original (whitespace-stripped) text in the message instead of the empty
string.  The `hide_thinking.py` (v0.3) variant does not satisfy the claim:
its `remove_thought` asserts that the stripped text is non-empty and raises
before the guard can run — see the counterexample. -/
theorem outletV01_keeps_original_when_strip_empties (msgs : List (List Char))
    (lastMsg : List Char) (hlast : msgs.getLast? = some lastMsg)
    (hpat : (patSearch lastMsg).isSome)
    (hold : pyStrip lastMsg ≠ [])
    (hempty : pyStrip (patSub (pyStrip lastMsg)) = []) :
    outletV01 true msgs = .ok (setLast msgs (pyStrip lastMsg)) := by
  unfold outletV01
  rw [hlast]
  dsimp only
  rw [if_pos hpat]
  unfold removeThoughtV01
  rw [hempty]
  have hne : pyStrip lastMsg ≠ ([] : List Char) := hold
  rw [if_pos hne]
  have hand : ([] : List Char) = [] ∧ pyStrip lastMsg ≠ [] := ⟨rfl, hold⟩
  rw [if_pos hand, setLast_setLast]
  simp

/-- C7 witness: a last message that is entirely one fenced thinking block. -/
theorem outletV01_keeps_original_when_strip_empties_witness :
    outletV01 true ["``` thinking\nx\n```".data] =
      .ok (setLast ["``` thinking\nx\n```".data]
        (pyStrip "``` thinking\nx\n```".data)) :=
  outletV01_keeps_original_when_strip_empties ["``` thinking\nx\n```".data]
    "``` thinking\nx\n```".data (by decide) (by decide) (by decide) (by decide)

/-- C7 counterexample: in `hide_thinking.py` (v0.3), when stripping would
leave the last message empty the outlet does not keep the original text — it
raises the `AssertionError` from `remove_thought`'s `assert step1` before
the `if (not new) and old:` guard is reached. -/
theorem outletV03_raises_instead_of_keeping_original :
    outletV03 true ["``` thinking\nx\n```".data] =
      .error "Empty text after step 1 of thought removal" := by
  decide

/-! ### Lemmas for the filters' concrete pattern -/

theorem scanFrom_some {p : Nat → Bool} :
    ∀ {fuel i r : Nat}, scanFrom p fuel i = some r → p r = true ∧ i ≤ r := by
  intro fuel
  induction fuel with
  | zero => intro i r h; cases h
  | succ n ih =>
    intro i r h
    unfold scanFrom at h
    by_cases hp : p i = true
    · rw [if_pos hp] at h
      cases h
      exact ⟨hp, Nat.le_refl _⟩
    · rw [if_neg hp] at h
      obtain ⟨h1, h2⟩ := ih h
      exact ⟨h1, by omega⟩

theorem startTokEnd_some {s : List Char} {i k : Nat}
    (h : startTokEnd s i = some k) :
    matchesAt "```".data s i = true ∧ i + 11 ≤ k := by
  unfold startTokEnd at h
  by_cases h1 : (anchorAt s i && matchesAt "```".data s i) = true
  · rw [if_pos h1] at h
    have hm : matchesAt "```".data s i = true := by
      rw [Bool.and_eq_true] at h1
      exact h1.2
    by_cases h2 : matchesAt " thinking".data s (i + 3) = true
    · rw [if_pos h2] at h
      cases h
      exact ⟨hm, by omega⟩
    · rw [if_neg h2] at h
      by_cases h3 : matchesAt "thinking".data s (i + 3) = true
      · rw [if_pos h3] at h
        cases h
        exact ⟨hm, by omega⟩
      · rw [if_neg h3] at h
        cases h
  · rw [if_neg h1] at h
    cases h

theorem patMatchAt_some {s : List Char} {i e : Nat} (h : patMatchAt s i = some e) :
    matchesAt "```".data s i = true ∧
    ∃ j, matchesAt "```".data s j = true ∧ e = j + 3 ∧ i + 11 ≤ j := by
  unfold patMatchAt at h
  cases hst : startTokEnd s i with
  | none => rw [hst] at h; cases h
  | some k =>
    rw [hst] at h
    dsimp only at h
    obtain ⟨hm, hk⟩ := startTokEnd_some hst
    cases hsc : scanFrom (stopTokAt s) (s.length + 1) k with
    | none => rw [hsc] at h; cases h
    | some j =>
      rw [hsc] at h
      simp only [Option.map] at h
      cases h
      obtain ⟨hpj, hkj⟩ := scanFrom_some hsc
      exact ⟨hm, j, hpj, rfl, by omega⟩

theorem patSearch_some {s : List Char} {i e : Nat}
    (h : patSearch s = some (i, e)) : patMatchAt s i = some e := by
  unfold patSearch searchBy at h
  cases hsc : scanFrom (fun i => (patMatchAt s i).isSome) (s.length + 1) 0 with
  | none => rw [hsc] at h; cases h
  | some i0 =>
    rw [hsc] at h
    dsimp only at h
    cases hm : patMatchAt s i0 with
    | none => rw [hm] at h; cases h
    | some e0 =>
      rw [hm] at h
      cases h
      exact hm

theorem patSearch_span_shape {s : List Char} {i e : Nat}
    (h : patSearch s = some (i, e)) :
    i + 14 ≤ e ∧ e ≤ s.length ∧
    (∃ r1, (s.drop i).take (e - i) = '`' :: r1) ∧
    (∃ r2, (s.drop i).take (e - i) = r2 ++ ['`']) := by
  obtain ⟨hstart, j, hstop, he, hij⟩ := patMatchAt_some (patSearch_some h)
  subst he
  have hlen : ("```".data).length = 3 := rfl
  have hjs : j + 3 ≤ s.length := by
    have := matchesAt_le_length (by decide) hstop
    rw [hlen] at this
    exact this
  refine ⟨by omega, by omega, ?_, ?_⟩
  · unfold matchesAt at hstart
    rw [isPrefixOf_spec] at hstart
    obtain ⟨t, ht⟩ := hstart
    have hsd : s.drop i = '`' :: ('`' :: '`' :: t) := by rw [← ht]; rfl
    obtain ⟨k, hk⟩ : ∃ k, j + 3 - i = k + 1 := ⟨j + 3 - i - 1, by omega⟩
    rw [hsd, hk, List.take_succ_cons]
    exact ⟨_, rfl⟩
  · unfold matchesAt at hstop
    rw [isPrefixOf_spec] at hstop
    obtain ⟨t2, ht2⟩ := hstop
    have hsd2 : s.drop j = '`' :: '`' :: '`' :: t2 := by rw [← ht2]; rfl
    have hspan : (s.drop i).take (j + 3 - i) = (s.take j).drop i ++ ['`', '`', '`'] := by
      rw [List.take_drop]
      have hadd : i + (j + 3 - i) = j + 3 := by omega
      rw [hadd]
      have htj : s.take (j + 3) = s.take j ++ ['`', '`', '`'] := by
        have := List.take_add s j 3
        rw [this, hsd2]
        rfl
      rw [htj, List.drop_append_of_le_length]
      rw [List.length_take]
      omega
    rw [hspan]
    exact ⟨(s.take j).drop i ++ ['`', '`'], by simp⟩

theorem dropWhile_append_cons (p : Char → Bool) (u : List Char) (c : Char)
    (r : List Char) (hc : p c = false) :
    (u ++ c :: r).dropWhile p = u.dropWhile p ++ c :: r := by
  induction u with
  | nil => simp [List.dropWhile, hc]
  | cons a u ih =>
    by_cases ha : p a = true
    · simp only [List.cons_append, List.dropWhile, ha]
      exact ih
    · have ha' : p a = false := by revert ha; cases p a <;> simp
      simp only [List.cons_append, List.dropWhile, ha']
      rfl

theorem pyStrip_keeps_mid (t1 sp t2 : List Char)
    (h1 : ∃ r, sp = '`' :: r) (h2 : ∃ r, sp = r ++ ['`']) :
    pyStrip (t1 ++ sp ++ t2) =
      t1.dropWhile isPyWs ++ sp ++ (t2.reverse.dropWhile isPyWs).reverse := by
  obtain ⟨r1, hr1⟩ := h1
  obtain ⟨r2, hr2⟩ := h2
  have hbq : isPyWs '`' = false := by decide
  unfold pyStrip
  have s1 : (t1 ++ sp ++ t2).dropWhile isPyWs = t1.dropWhile isPyWs ++ sp ++ t2 := by
    conv_lhs => rw [hr1]
    rw [List.append_assoc, List.cons_append,
      dropWhile_append_cons isPyWs t1 '`' (r1 ++ t2) hbq]
    rw [hr1]
    simp [List.append_assoc]
  rw [s1]
  have s2 : (t1.dropWhile isPyWs ++ sp ++ t2).reverse =
      t2.reverse ++ sp.reverse ++ (t1.dropWhile isPyWs).reverse := by
    simp [List.append_assoc]
  rw [s2]
  have hrev : sp.reverse = '`' :: r2.reverse := by
    rw [hr2]
    simp
  have s3 : (t2.reverse ++ sp.reverse ++ (t1.dropWhile isPyWs).reverse).dropWhile isPyWs =
      t2.reverse.dropWhile isPyWs ++ sp.reverse ++ (t1.dropWhile isPyWs).reverse := by
    conv_lhs => rw [hrev]
    rw [List.append_assoc, List.cons_append,
      dropWhile_append_cons isPyWs _ '`' _ hbq]
    rw [hrev]
    simp [List.append_assoc]
  rw [s3]
  simp [List.append_assoc]

theorem searchBy_none_scan {m : Nat → Option Nat} {len : Nat}
    (h : searchBy m len = none) :
    scanFrom (fun i => (m i).isSome) (len + 1) 0 = none := by
  unfold searchBy at h
  cases hsc : scanFrom (fun i => (m i).isSome) (len + 1) 0 with
  | none => rfl
  | some i =>
    rw [hsc] at h
    dsimp only at h
    have hp := (scanFrom_some hsc).1
    cases hm : m i with
    | none => rw [hm] at hp; simp at hp
    | some e => rw [hm] at h; cases h

theorem convSub_of_none {s : List Char} (h : convSearch s = none) :
    convSub s = s := by
  unfold convSearch at h
  have hsc := searchBy_none_scan h
  unfold convSub subBy
  unfold matchesFromBy
  rw [hsc]
  rfl

/-- C10: in both outlet-filter variants with a converted-pattern step
(`filters/hide_thinking.py` v0.3 and `filters/hide_thinking_filter.py` v0.5),
`remove_thought`'s second substitution is applied to the original `text`, not
to the result of the first: for every text that matches the fenced thinking
pattern but contains no `<details><summary>Reasonning</summary>…</details>`
span, a successful call returns the original text (stripped in v0.3,
verbatim in v0.5) with the fenced thinking block still present in it. -/
theorem remove_thought_second_sub_uses_original (text : List Char) (i e : Nat)
    (hpat : patSearch text = some (i, e)) (hconv : convSearch text = none) :
    (∀ r, removeThoughtV03 text = .ok r →
      r = pyStrip text ∧ ∃ p q, r = p ++ (text.drop i).take (e - i) ++ q) ∧
    (patSub text ≠ [] → removeThoughtV05 text = .ok text) := by
  obtain ⟨hie, hes, hhead, hlast⟩ := patSearch_span_shape hpat
  have hdecomp : text = text.take i ++ (text.drop i).take (e - i) ++ text.drop e := by
    have h2 : (text.drop i).drop (e - i) = text.drop e := by
      rw [List.drop_drop]
      congr 1
      omega
    rw [List.append_assoc, ← h2, List.take_append_drop, List.take_append_drop]
  have hstrip' : pyStrip text =
      (text.take i).dropWhile isPyWs ++ (text.drop i).take (e - i) ++
        ((text.drop e).reverse.dropWhile isPyWs).reverse := by
    conv_lhs => rw [hdecomp]
    exact pyStrip_keeps_mid _ _ _ hhead hlast
  have hstrip_ne : pyStrip text ≠ [] := by
    obtain ⟨r1, hr1⟩ := hhead
    rw [hstrip', hr1]
    simp
  have htext_ne : text ≠ [] := by
    intro hx
    rw [hx] at hes
    simp at hes
    omega
  have hc1 : ((patSearch text).isNone && (convSearch text).isNone) = false := by
    rw [hpat]
    rfl
  constructor
  · intro r hro
    unfold removeThoughtV03 at hro
    rw [hc1] at hro
    simp only [Bool.false_eq_true, if_false] at hro
    rw [if_neg hstrip_ne] at hro
    by_cases hs1 : pyStrip (patSub text) = []
    · rw [if_pos hs1] at hro
      cases hro
    · rw [if_neg hs1, convSub_of_none hconv, if_neg hstrip_ne] at hro
      injection hro with hr
      subst hr
      exact ⟨rfl, _, _, hstrip'⟩
  · intro hsub
    unfold removeThoughtV05
    rw [hc1]
    simp only [Bool.false_eq_true, if_false]
    rw [if_neg hstrip_ne, if_neg hsub, convSub_of_none hconv, if_neg htext_ne]

/-- C10 witness: a realistic text with one fenced thinking block and no
converted span; both variants return the original text with the block
intact. -/
theorem remove_thought_second_sub_uses_original_witness :
    removeThoughtV05 "a\n```thinking\nb```c".data = .ok "a\n```thinking\nb```c".data ∧
    (∃ p q, pyStrip "a\n```thinking\nb```c".data =
      p ++ ("a\n```thinking\nb```c".data.drop 2).take (18 - 2) ++ q) := by
  have h := remove_thought_second_sub_uses_original "a\n```thinking\nb```c".data 2 18
    (by decide) (by decide)
  refine ⟨h.2 (by decide), ?_⟩
  exact (h.1 (pyStrip "a\n```thinking\nb```c".data) (by decide)).2

/-- C6 counterexample: with one start delimiter (`[1]` at 0) followed by two
end delimiters (`[2]` at 2 and 4), the matched span is `(0, 5)` — it ends at
the last end delimiter, not at the first (which would give `(0, 3)`). -/
theorem pipes_pattern_not_nongreedy :
    searchGreedy ([1] : List Nat) [2] [1, 0, 2, 0, 2] = some (0, 5) ∧
    searchGreedy ([1] : List Nat) [2] [1, 0, 2, 0, 2] ≠ some (0, 3) := by
  constructor
  · decide
  · decide

/-! ## C1: chunk-boundary independence of the remove pipe's aggregate output -/

/-- Helper: if no position is viable for the full pattern, the greedy search
fails. -/
theorem searchGreedy_none_of_noViable {st sp s : List α}
    (h : ∀ i, ¬ viableAt st sp s i) : searchGreedy st sp s = none := by
  unfold searchGreedy
  cases hss : searchStart st sp s with
  | none => rfl
  | some i => exact absurd (searchStart_some hss) (h i)

/-- Helper: a pattern with no occurrence anywhere has no leftmost
occurrence. -/
theorem firstMatch_eq_none_of {pat s : List α}
    (h : ∀ j, matchesAt pat s j = false) : firstMatch pat s = none := by
  cases hf : firstMatch pat s with
  | none => rfl
  | some i =>
    have hm := firstMatch_some hf
    rw [h i] at hm
    cases hm

/-- Helper: a prefix equals the take of its own length. -/
theorem prefix_eq_take {l s : List α} (h : l <+: s) : l = s.take l.length := by
  obtain ⟨t, rfl⟩ := h
  rw [List.take_left]

/-- Helper: appending on the left preserves the prefix relation. -/
theorem prefix_append_left (u : List α) {x y : List α} (h : x <+: y) :
    u ++ x <+: u ++ y := by
  obtain ⟨t, rfl⟩ := h
  exact ⟨t, by rw [List.append_assoc]⟩

/-- Helper: a token occurring nowhere in `uv` occurs nowhere in any suffix of
any prefix of `uv`. -/
theorem noStart_of_residual {ts uv X B : List α} {L : Nat}
    (h3 : ∀ j, matchesAt ts uv j = false)
    (hX : X <+: uv) (hB : B = X.drop L) :
    ∀ j, matchesAt ts B j = false := by
  intro j
  subst hB
  cases hm : matchesAt ts (X.drop L) j with
  | false => rfl
  | true =>
    rw [matchesAt_drop] at hm
    have hm2 := matchesAt_mono hX hm
    rw [h3 (L + j)] at hm2
    cases hm2

/-- Helper: a token occurs right after any decomposition prefix. -/
theorem matchesAt_middle (A t r : List α) :
    matchesAt t (A ++ (t ++ r)) A.length = true := by
  have h0 : matchesAt t (t ++ r) 0 = true := by
    rw [matchesAt_zero, isPrefixOf_spec]
    exact ⟨r, rfl⟩
  have h := matchesAt_append_right A h0
  rw [Nat.add_zero] at h
  exact h

/-- Helper: full case description of the emit phase — the emitted fragment is
a prefix of the buffer, and it is nonempty only in the
no-pending-start-delimiter branch, where exactly all but the last
`len_start_thought` elements leave the buffer. -/
theorem emitPhaseRemove_spec (cfg : Config α) (st : RemoveState α) :
    ∃ k, k ≤ st.buffer.length ∧
      (k ≠ 0 → firstMatch cfg.tokStart st.buffer = none ∧
        lenStartThought cfg < st.buffer.length ∧
        k = st.buffer.length - lenStartThought cfg) ∧
      (emitPhaseRemove cfg st).out =
        st.out ++ (if k = 0 then [] else [st.buffer.take k]) ∧
      (emitPhaseRemove cfg st).buffer = st.buffer.drop k ∧
      (emitPhaseRemove cfg st).thought_removed = st.thought_removed := by
  unfold emitPhaseRemove
  by_cases h0 : st.buffer = []
  · rw [if_pos h0]
    exact ⟨0, by simp, by simp, by simp, by simp, rfl⟩
  · rw [if_neg h0]
    by_cases h1 : (firstMatch cfg.tokStart st.buffer).isSome
    · rw [if_pos h1]
      exact ⟨0, by simp, by simp, by simp, by simp, rfl⟩
    · rw [if_neg h1]
      by_cases h2 : lenStartThought cfg < st.buffer.length
      · rw [if_pos h2]
        refine ⟨st.buffer.length - lenStartThought cfg, by omega, ?_, ?_, by simp, rfl⟩
        · intro _
          exact ⟨Option.not_isSome_iff_eq_none.mp h1, h2, rfl⟩
        · have hk : st.buffer.length - lenStartThought cfg ≠ 0 := by omega
          simp [hk]
      · rw [if_neg h2]
        exact ⟨0, by simp, by simp, by simp, by simp, rfl⟩

/-- Helper: one loop iteration of the remove pipe preserves the
single-thought-block invariant `removeInv`, for a stream whose aggregate
`S = u ++ start ++ w ++ stop ++ v` has its leftmost start-delimiter
occurrence at `u.length`, a unique stop-delimiter occurrence at or after the
start (closing the block), and no start occurrence in the residual
`u ++ v`. -/
theorem stepRemove_inv (cfg : Config α) (u w v S : List α)
    (hstop : cfg.tokStop ≠ [])
    (huS : u <+: S)
    (hSv : S.drop (u.length + cfg.tokStart.length + w.length +
      cfg.tokStop.length) = v)
    (hU1b : matchesAt cfg.tokStart S u.length = true)
    (hU1 : ∀ j, matchesAt cfg.tokStart S j = true → u.length ≤ j)
    (hU2 : ∀ j, u.length + cfg.tokStart.length ≤ j →
      (matchesAt cfg.tokStop S j = true ↔
        j = u.length + cfg.tokStart.length + w.length))
    (h3 : ∀ j, matchesAt cfg.tokStart (u ++ v) j = false)
    (st : RemoveState α) (P c : List α) (hP : P ++ c <+: S)
    (hinv : removeInv u (u.length + cfg.tokStart.length + w.length +
      cfg.tokStop.length) st P) :
    removeInv u (u.length + cfg.tokStart.length + w.length +
      cfg.tokStop.length) (stepRemove cfg st c) (P ++ c) := by
  have hb1 : 1 ≤ cfg.tokStop.length := List.length_pos.mpr hstop
  have hPC : (P ++ c).length = P.length + c.length := by simp
  have hP'len := hP.length_le
  have hP'eq : P ++ c = S.take (P.length + c.length) := by
    have h := prefix_eq_take hP
    rw [List.length_append] at h
    exact h
  unfold removeInv at hinv ⊢
  cases hinv with
  | inl hA =>
    obtain ⟨hrem0, hupre, hPeq, hPlt⟩ := hA
    set L := (outFlat st).length with hLdef
    have hLu : L ≤ u.length := by
      have h := hupre.length_le
      omega
    have hLP : L ≤ P.length := by
      have hlen := congrArg List.length hPeq
      rw [List.length_append] at hlen
      omega
    have hbuf : st.buffer = P.drop L := by
      rw [← hPeq, hLdef, List.drop_left]
    have hout : outFlat st = P.take L := by
      rw [← hPeq, hLdef, List.take_left]
    have houtP' : outFlat st = (P ++ c).take L := by
      rw [List.take_append_of_le_length hLP]
      exact hout
    have hBc : st.buffer ++ c = (P ++ c).drop L := by
      rw [List.drop_append_of_le_length hLP, ← hbuf]
    have hBlen : (st.buffer ++ c).length = (P ++ c).length - L := by
      rw [hBc, List.length_drop]
    have hlift : ∀ pat : List α, ∀ j,
        matchesAt pat (st.buffer ++ c) j = true →
        matchesAt pat S (L + j) = true := by
      intro pat j hm
      rw [hBc, matchesAt_drop] at hm
      exact matchesAt_mono hP hm
    by_cases hcross : (P ++ c).length <
        u.length + cfg.tokStart.length + w.length + cfg.tokStop.length
    · -- the consumed prefix is still too short to hold the whole block:
      -- the greedy search fails and only text from `u` can be emitted
      have hnov : ∀ i, ¬ viableAt cfg.tokStart cfg.tokStop (st.buffer ++ c) i := by
        intro i hv
        unfold viableAt at hv
        obtain ⟨hm1, j, hj, hm2⟩ := hv
        have hjb := matchesAt_le_length hstop hm2
        have hs1 := hU1 _ (hlift _ _ hm1)
        have hs2 := (hU2 (L + j) (by omega)).mp (hlift _ _ hm2)
        omega
      have hsg : searchGreedy cfg.tokStart cfg.tokStop (st.buffer ++ c) = none :=
        searchGreedy_none_of_noViable hnov
      unfold stepRemove
      rw [matchPhaseRemove_none cfg st c hsg]
      obtain ⟨k, hk, hkinfo, hkout, hkbuf, hkrem⟩ :=
        emitPhaseRemove_spec cfg { st with buffer := st.buffer ++ c }
      have hb' : ({ st with buffer := st.buffer ++ c } : RemoveState α).buffer =
          st.buffer ++ c := rfl
      have ho' : ({ st with buffer := st.buffer ++ c } : RemoveState α).out =
          st.out := rfl
      have hr' : ({ st with buffer := st.buffer ++ c } :
          RemoveState α).thought_removed = st.thought_removed := rfl
      rw [hb'] at hk hkinfo hkout hkbuf
      rw [ho'] at hkout
      rw [hr'] at hkrem
      left
      refine ⟨?_, ?_, ?_, hcross⟩
      · rw [hkrem]
        exact hrem0
      · have houtflat :
            outFlat (emitPhaseRemove cfg { st with buffer := st.buffer ++ c }) =
            outFlat st ++ (st.buffer ++ c).take k := by
          unfold outFlat
          rw [hkout]
          by_cases hk0 : k = 0
          · subst hk0
            simp
          · simp [hk0, List.flatten_append]
        rw [houtflat]
        by_cases hk0 : k = 0
        · subst hk0
          simpa using hupre
        · obtain ⟨hfm, hlt, hkeq⟩ := hkinfo hk0
          have hPu : (P ++ c).length < u.length + cfg.tokStart.length := by
            by_contra hge
            push_neg at hge
            have h1 : matchesAt cfg.tokStart (S.take (P.length + c.length))
                u.length = true :=
              matchesAt_take hU1b (by omega)
            rw [← hP'eq] at h1
            have h2 : matchesAt cfg.tokStart (st.buffer ++ c)
                (u.length - L) = true := by
              rw [hBc, matchesAt_drop]
              have heqL : L + (u.length - L) = u.length := by omega
              rw [heqL]
              exact h1
            have h4 := firstMatch_isSome_of h2
            rw [hfm] at h4
            simp at h4
          have hlenlen : lenStartThought cfg = 3 * cfg.tokStart.length / 2 := rfl
          have hLk : L + k ≤ u.length := by omega
          have htake : outFlat st ++ (st.buffer ++ c).take k =
              (P ++ c).take (L + k) := by
            rw [List.take_add, ← houtP', ← hBc]
          have htu : (P ++ c).take (L + k) = u.take (L + k) := by
            rw [hP'eq, List.take_take, prefix_eq_take huS, List.take_take]
            congr 1
            omega
          rw [htake, htu]
          exact List.take_prefix _ _
      · have hcons := emitPhaseRemove_conserve cfg
          { st with buffer := st.buffer ++ c }
        have hof' : outFlat { st with buffer := st.buffer ++ c } =
            outFlat st := rfl
        rw [hof', hb'] at hcons
        rw [hcons, ← List.append_assoc, hPeq]
    · -- the consumed prefix now contains the whole block: the greedy search
      -- finds it and the step removes exactly the delimiter span
      push_neg at hcross
      have hmSp0 : matchesAt cfg.tokStop S
          (u.length + cfg.tokStart.length + w.length) = true :=
        (hU2 _ (by omega)).mpr rfl
      have hmSt' : matchesAt cfg.tokStart (st.buffer ++ c)
          (u.length - L) = true := by
        have h1 : matchesAt cfg.tokStart (S.take (P.length + c.length))
            u.length = true :=
          matchesAt_take hU1b (by omega)
        rw [← hP'eq] at h1
        rw [hBc, matchesAt_drop]
        have heqL : L + (u.length - L) = u.length := by omega
        rw [heqL]
        exact h1
      have hmSp' : matchesAt cfg.tokStop (st.buffer ++ c)
          (u.length + cfg.tokStart.length + w.length - L) = true := by
        have h1 : matchesAt cfg.tokStop (S.take (P.length + c.length))
            (u.length + cfg.tokStart.length + w.length) = true :=
          matchesAt_take hmSp0 (by omega)
        rw [← hP'eq] at h1
        rw [hBc, matchesAt_drop]
        have heqL : L + (u.length + cfg.tokStart.length + w.length - L) =
            u.length + cfg.tokStart.length + w.length := by omega
        rw [heqL]
        exact h1
      have hvA : viableAt cfg.tokStart cfg.tokStop (st.buffer ++ c)
          (u.length - L) := by
        unfold viableAt
        exact ⟨hmSt', u.length + cfg.tokStart.length + w.length - L,
          by omega, hmSp'⟩
      have hminA : ∀ i', i' < u.length - L →
          ¬ viableAt cfg.tokStart cfg.tokStop (st.buffer ++ c) i' := by
        intro i' hi' hv
        unfold viableAt at hv
        obtain ⟨hm1, j, hj, hm2⟩ := hv
        have := hU1 _ (hlift _ _ hm1)
        omega
      have hmaxA : ∀ j', matchesAt cfg.tokStop (st.buffer ++ c) j' = true →
          j' ≤ u.length + cfg.tokStart.length + w.length - L := by
        intro j' hm
        have hS' := hlift _ _ hm
        by_cases hj' : u.length + cfg.tokStart.length ≤ L + j'
        · have := (hU2 _ hj').mp hS'
          omega
        · omega
      have hsg : searchGreedy cfg.tokStart cfg.tokStop (st.buffer ++ c) =
          some (u.length - L,
            u.length + cfg.tokStart.length + w.length - L +
              cfg.tokStop.length) :=
        searchGreedy_eq_of hstop hvA hminA hmSp' hmaxA
      have hMrem : (matchPhaseRemove cfg st c).thought_removed =
          st.thought_removed + 1 := by
        rw [matchPhaseRemove_some cfg st c hsg]
      have hMout : (matchPhaseRemove cfg st c).out = st.out := by
        rw [matchPhaseRemove_some cfg st c hsg]
      have hMbuf : (matchPhaseRemove cfg st c).buffer =
          (st.buffer ++ c).take (u.length - L) ++
            (st.buffer ++ c).drop
              (u.length + cfg.tokStart.length + w.length - L +
                cfg.tokStop.length) := by
        rw [matchPhaseRemove_some cfg st c hsg]
      unfold stepRemove
      right
      obtain ⟨k, hk1, hk2, hk3, hkrem⟩ :=
        emitPhaseRemove_fifo cfg (matchPhaseRemove cfg st c)
      refine ⟨?_, ?_, hcross⟩
      · rw [hkrem, hMrem, hrem0]
      · have hcons := emitPhaseRemove_conserve cfg (matchPhaseRemove cfg st c)
        rw [hcons]
        have hMoutflat : outFlat (matchPhaseRemove cfg st c) = outFlat st := by
          unfold outFlat
          rw [hMout]
        rw [hMoutflat, hMbuf]
        have hfront : outFlat st ++ (st.buffer ++ c).take (u.length - L) =
            u := by
          rw [houtP', hBc, ← List.take_add]
          have heq2 : L + (u.length - L) = u.length := by omega
          rw [heq2, hP'eq, List.take_take]
          have heq3 : min u.length (P.length + c.length) = u.length := by omega
          rw [heq3, ← prefix_eq_take huS]
        have hback : (st.buffer ++ c).drop
            (u.length + cfg.tokStart.length + w.length - L +
              cfg.tokStop.length) =
            (P ++ c).drop (u.length + cfg.tokStart.length + w.length +
              cfg.tokStop.length) := by
          rw [hBc, List.drop_drop]
          congr 1
          omega
        rw [← List.append_assoc, hfront, hback]
  | inr hB =>
    obtain ⟨hrem1, hPeq, hPge⟩ := hB
    set L := (outFlat st).length with hLdef
    have hLX : L ≤ (u ++ P.drop (u.length + cfg.tokStart.length + w.length +
        cfg.tokStop.length)).length := by
      have hlen := congrArg List.length hPeq
      rw [List.length_append] at hlen
      omega
    have hbuf : st.buffer = (u ++ P.drop (u.length + cfg.tokStart.length +
        w.length + cfg.tokStop.length)).drop L := by
      rw [← hPeq, hLdef, List.drop_left]
    have hdropPc : (P ++ c).drop (u.length + cfg.tokStart.length + w.length +
        cfg.tokStop.length) =
        P.drop (u.length + cfg.tokStart.length + w.length +
          cfg.tokStop.length) ++ c :=
      List.drop_append_of_le_length hPge
    have hBc : st.buffer ++ c =
        (u ++ (P ++ c).drop (u.length + cfg.tokStart.length + w.length +
          cfg.tokStop.length)).drop L := by
      rw [hdropPc, ← List.append_assoc, List.drop_append_of_le_length hLX,
        ← hbuf]
    have hXv : u ++ (P ++ c).drop (u.length + cfg.tokStart.length + w.length +
        cfg.tokStop.length) <+: u ++ v := by
      apply prefix_append_left
      rw [hP'eq, List.drop_take, hSv]
      exact List.take_prefix _ _
    have hnostart := noStart_of_residual h3 hXv hBc
    have hsg := @searchGreedy_none_of_noStart α _ cfg.tokStart cfg.tokStop
      (st.buffer ++ c) hnostart
    unfold stepRemove
    rw [matchPhaseRemove_none cfg st c hsg]
    right
    obtain ⟨k, hk1, hk2, hk3, hkrem⟩ :=
      emitPhaseRemove_fifo cfg { st with buffer := st.buffer ++ c }
    refine ⟨?_, ?_, by omega⟩
    · rw [hkrem]
      exact hrem1
    · have hcons := emitPhaseRemove_conserve cfg
        { st with buffer := st.buffer ++ c }
      have hof' : outFlat { st with buffer := st.buffer ++ c } =
          outFlat st := rfl
      have hb' : ({ st with buffer := st.buffer ++ c } : RemoveState α).buffer =
          st.buffer ++ c := rfl
      rw [hof', hb'] at hcons
      rw [hcons]
      have hout : outFlat st =
          (u ++ (P ++ c).drop (u.length + cfg.tokStart.length + w.length +
            cfg.tokStop.length)).take L := by
        rw [hdropPc, ← List.append_assoc, List.take_append_of_le_length hLX,
          ← hPeq, hLdef, List.take_left]
      rw [hout, hBc, List.take_append_drop]

/-- Helper: folding the remove pipe's step over a chunk list preserves the
single-thought-block invariant. -/
theorem foldRemove_inv (cfg : Config α) (u w v S : List α)
    (hstop : cfg.tokStop ≠ [])
    (huS : u <+: S)
    (hSv : S.drop (u.length + cfg.tokStart.length + w.length +
      cfg.tokStop.length) = v)
    (hU1b : matchesAt cfg.tokStart S u.length = true)
    (hU1 : ∀ j, matchesAt cfg.tokStart S j = true → u.length ≤ j)
    (hU2 : ∀ j, u.length + cfg.tokStart.length ≤ j →
      (matchesAt cfg.tokStop S j = true ↔
        j = u.length + cfg.tokStart.length + w.length))
    (h3 : ∀ j, matchesAt cfg.tokStart (u ++ v) j = false)
    (cs : List (List α)) :
    ∀ st P, removeInv u (u.length + cfg.tokStart.length + w.length +
        cfg.tokStop.length) st P →
      P ++ cs.flatten <+: S →
      removeInv u (u.length + cfg.tokStart.length + w.length +
        cfg.tokStop.length) (cs.foldl (stepRemove cfg) st)
        (P ++ cs.flatten) := by
  induction cs with
  | nil =>
    intro st P hinv _
    simpa using hinv
  | cons c cs ih =>
    intro st P hinv hpre
    rw [List.flatten_cons, ← List.append_assoc] at hpre
    rw [List.foldl_cons, List.flatten_cons, ← List.append_assoc]
    exact ih (stepRemove cfg st c) (P ++ c)
      (stepRemove_inv cfg u w v S hstop huS hSv hU1b hU1 hU2 h3 st P c
        ((List.prefix_append (P ++ c) cs.flatten).trans hpre) hinv)
      hpre

/-- C1 (amended): for the remove pipe, for a stream whose aggregate content
`S = u ++ start ++ w ++ stop ++ v` contains exactly one thought block — the
leftmost start-delimiter occurrence opens the block at `u.length`, the first
stop-delimiter occurrence at or after the start closes it and is also the
last stop occurrence of the stream, and the residual text `u ++ v` holds no
start-delimiter occurrence — the concatenation of all fragments yielded by
the loop plus the final flush equals `u ++ v`, the aggregate with the
delimiter span removed, for every partitioning of `S` into chunks.  (In
general — several blocks, or stray delimiters — the greedy pattern makes
the aggregate output depend on the chunk boundaries: see the
counterexample.) -/
theorem remove_single_block_chunk_independent (cfg : Config α)
    (u w v : List α) (chunks : List (List α))
    (hstop : cfg.tokStop ≠ [])
    (hS : chunks.flatten = u ++ cfg.tokStart ++ w ++ cfg.tokStop ++ v)
    (h1a : firstMatch cfg.tokStart chunks.flatten = some u.length)
    (h2a : firstMatch cfg.tokStop
      (chunks.flatten.drop (u.length + cfg.tokStart.length)) = some w.length)
    (h2b : firstMatch cfg.tokStop
      (chunks.flatten.drop
        (u.length + cfg.tokStart.length + w.length + 1)) = none)
    (h3 : firstMatch cfg.tokStart (u ++ v) = none) :
    outFlat (runRemove cfg chunks) = u ++ v := by
  have huS : u <+: chunks.flatten := by
    rw [hS]
    exact ⟨cfg.tokStart ++ w ++ cfg.tokStop ++ v, by simp [List.append_assoc]⟩
  have hS4 : chunks.flatten = (u ++ cfg.tokStart ++ w ++ cfg.tokStop) ++ v := by
    rw [hS]
  have hlen4 : (u ++ cfg.tokStart ++ w ++ cfg.tokStop).length =
      u.length + cfg.tokStart.length + w.length + cfg.tokStop.length := by
    simp only [List.length_append]
  have hSv : chunks.flatten.drop
      (u.length + cfg.tokStart.length + w.length + cfg.tokStop.length) = v := by
    rw [hS4, ← hlen4, List.drop_left]
  have hU1b := firstMatch_some h1a
  have hU1 := firstMatch_min h1a
  have hmStop : matchesAt cfg.tokStop chunks.flatten
      (u.length + cfg.tokStart.length + w.length) = true := by
    have h := firstMatch_some h2a
    rw [matchesAt_drop] at h
    exact h
  have hU2 : ∀ j, u.length + cfg.tokStart.length ≤ j →
      (matchesAt cfg.tokStop chunks.flatten j = true ↔
        j = u.length + cfg.tokStart.length + w.length) := by
    intro j hj
    constructor
    · intro hm
      have hd : matchesAt cfg.tokStop
          (chunks.flatten.drop (u.length + cfg.tokStart.length))
          (j - (u.length + cfg.tokStart.length)) = true := by
        rw [matchesAt_drop]
        have heq : u.length + cfg.tokStart.length +
            (j - (u.length + cfg.tokStart.length)) = j := by omega
        rw [heq]
        exact hm
      have hmin := firstMatch_min h2a _ hd
      by_contra hne
      have hd2 : matchesAt cfg.tokStop
          (chunks.flatten.drop
            (u.length + cfg.tokStart.length + w.length + 1))
          (j - (u.length + cfg.tokStart.length + w.length + 1)) = true := by
        rw [matchesAt_drop]
        have heq : u.length + cfg.tokStart.length + w.length + 1 +
            (j - (u.length + cfg.tokStart.length + w.length + 1)) = j := by
          omega
        rw [heq]
        exact hm
      have hs := firstMatch_isSome_of hd2
      rw [h2b] at hs
      simp at hs
    · intro hj'
      rw [hj']
      exact hmStop
  have h3' := firstMatch_none h3
  have hinit : removeInv u (u.length + cfg.tokStart.length + w.length +
      cfg.tokStop.length) initRemove [] := by
    unfold removeInv
    left
    refine ⟨rfl, List.nil_prefix, rfl, ?_⟩
    have hb1 : 1 ≤ cfg.tokStop.length := List.length_pos.mpr hstop
    simp only [List.length_nil]
    omega
  have htriv : ([] : List α) ++ chunks.flatten <+: chunks.flatten := by
    rw [List.nil_append]
  have hfold := foldRemove_inv cfg u w v chunks.flatten hstop huS hSv hU1b hU1
    hU2 h3' chunks initRemove [] hinit htriv
  rw [List.nil_append] at hfold
  unfold removeInv at hfold
  cases hfold with
  | inl hA =>
    exfalso
    obtain ⟨_, _, _, hlt⟩ := hA
    have hlen := congrArg List.length hS
    simp only [List.length_append] at hlen
    omega
  | inr hB =>
    obtain ⟨hrem1, hPeq, _⟩ := hB
    rw [hSv] at hPeq
    unfold runRemove flushRemove preFlushRemove
    have hofn : outFlat (neverFoundCheck
        (flushYieldRemove cfg (chunks.foldl (stepRemove cfg) initRemove))) =
        outFlat (flushYieldRemove cfg
          (chunks.foldl (stepRemove cfg) initRemove)) := by
      unfold outFlat
      rw [(neverFoundCheck_fields
        (flushYieldRemove cfg (chunks.foldl (stepRemove cfg) initRemove))).2.1]
    rw [hofn]
    by_cases hb0 : (chunks.foldl (stepRemove cfg) initRemove).buffer = []
    · rw [flushYieldRemove_nil cfg (chunks.foldl (stepRemove cfg) initRemove) hb0]
      rw [hb0, List.append_nil] at hPeq
      exact hPeq
    · have hbeq : (chunks.foldl (stepRemove cfg) initRemove).buffer =
          (u ++ v).drop
            (outFlat (chunks.foldl (stepRemove cfg) initRemove)).length := by
        rw [← hPeq, List.drop_left]
      have hpr : (u ++ v : List α) <+: u ++ v := ⟨[], List.append_nil _⟩
      have hnostart := noStart_of_residual h3' hpr hbeq
      have hsg := @searchGreedy_none_of_noStart α _ cfg.tokStart cfg.tokStop
        (chunks.foldl (stepRemove cfg) initRemove).buffer hnostart
      have hfm : ¬ (firstMatch cfg.tokStart
          (chunks.foldl (stepRemove cfg) initRemove).buffer).isSome := by
        rw [firstMatch_eq_none_of hnostart]
        simp
      rw [flushYieldRemove_plain cfg
        (chunks.foldl (stepRemove cfg) initRemove) hb0 hsg hfm]
      unfold outFlat at hPeq ⊢
      rw [List.flatten_append]
      simp only [List.flatten_cons, List.flatten_nil, List.append_nil]
      exact hPeq

/-- C1 witness: the block `start w stop` of configuration
`start = [1], stop = [2]` inside the aggregate `[0, 1, 3, 2, 4]`, delivered
split across three chunks (the delimiters and body on different chunk
boundaries); the aggregate output is the surrounding text `[0] ++ [4]`. -/
theorem remove_single_block_chunk_independent_witness :
    outFlat (runRemove (Config.mk [1] [2] [] ([] : List Nat))
      [[0, 1], [3], [2, 4]]) = [0] ++ [4] :=
  remove_single_block_chunk_independent (Config.mk [1] [2] [] ([] : List Nat))
    [0] [3] [4] [[0, 1], [3], [2, 4]] (by decide) (by decide) (by decide)
    (by decide) (by decide) (by decide)

/-- C1 (counterexample to the claim as stated): the aggregate output of the
remove pipe is not chunk-boundary-independent.  On the aggregate stream
`start, x, stop, y, start, x, stop` (`start = [1]`, `stop = [2]`) delivered
as a single chunk, the greedy pattern matches from the first start delimiter
to the last stop delimiter and everything is removed (aggregate output
`[]`), while the two-chunk delivery removes the two blocks separately and
emits the in-between text `[5]`. -/
theorem remove_output_depends_on_chunking :
    outFlat (runRemove (Config.mk [1] [2] [] ([] : List Nat))
        [[1, 0, 2, 5, 1, 0, 2]]) ≠
      outFlat (runRemove (Config.mk [1] [2] [] ([] : List Nat))
        [[1, 0, 2], [5, 1, 0, 2]]) := by
  decide

end ThoughtStream

